import Mathlib

/-!
Verification of the Link Grammar core: clause building
(`link-grammar/prepare/build-disjuncts.c`), tracon sets
(`link-grammar/dict-common`, tracon-set part), and pre-parse preparation
(`link-grammar/parse/preparation.c`).

Shallow embedding conventions:
* C `float`/`double` costs are modelled by `Int` (exact integer-valued
  arithmetic; every claim under study is structural in the cost operations
  `+` and `<`, so an ordered ring with exact arithmetic is an adequate
  model and keeps everything kernel-computable).
* Pool-allocated records with pointer identity are modelled by numeric ids
  (`tid` for temporary connectors, `cid` for sentence connectors) together
  with explicit stores `Nat → _`.
* Fallible paths (the always-on `assert` macro of the library) are modelled
  by `Option`.
-/

set_option autoImplicit false

namespace LinkGrammar

/-- Interned connector descriptor (`condesc_t`): the identity of the interned
name (`id`, standing for the pointer compared by `connector_equal`) plus the
derived numeric forms read by the tracon-set hash (`uc_num`, `lc_letters`). -/
structure Condesc where
  id : Nat
  uc_num : Nat
  lc_letters : Nat
deriving DecidableEq, Repr

/-- Snapshot of the fields of a CONNECTOR-type `Exp` node as read through a
Tconnector's `e` pointer by `build_clause` and `build_disjunct`
(`dir`, `condesc`, `multi`, `cost`, `farthest_word`, `pos`).  `dir = true`
models `'+'`.  The snapshot is sound because the node's fields are not
mutated after `build_terminal` assigns `pos`. -/
structure TconnData where
  condesc : Condesc
  dir : Bool
  multi : Bool
  cost : Int
  farthest_word : Nat
  pos : Nat
deriving DecidableEq, Repr

mutual
/-- Expression tree node (`Exp_struct`): CONNECTOR / AND / OR with a per-node
cost.  The `operand_first`/`operand_next` sibling list is modelled by the
mutually inductive `ExpList`.  The optional diagnostic tag has no semantic
effect and is omitted.  `pos` is the mutable position field that
`build_terminal` writes (`c->e->pos = ct->exp_pos++`). -/
inductive Exp where
  | CONNECTOR (condesc : Condesc) (dir : Bool) (multi : Bool) (cost : Int)
      (farthest_word : Nat) (pos : Nat)
  | AND (cost : Int) (ops : ExpList)
  | OR (cost : Int) (ops : ExpList)
deriving DecidableEq, Repr

/-- Operand list of an AND/OR node (`operand_first` and the `operand_next`
chain). -/
inductive ExpList where
  | nil
  | cons (hd : Exp) (tl : ExpList)
deriving DecidableEq, Repr
end

/-- Temporary connector (`Tconnector_struct`).  `tid` models the identity of
the pool-allocated record (fresh per `pool_alloc`); `e` is the snapshot of the
referenced CONNECTOR node.  The `tracon` cache slot is NULL throughout
`build_clause` and is modelled as an external map keyed by `tid` inside
`build_disjunct` (the only code that reads or writes it). -/
structure Tconnector where
  tid : Nat
  e : TconnData
deriving DecidableEq, Repr

/-- `clause_struct`: a list of temporary connectors plus the total cost. -/
structure Clause where
  c : List Tconnector
  totcost : Int
deriving DecidableEq, Repr

/-- The mutable counters of clause building: `clause_context.exp_pos` and the
Tconnector pool allocation counter (fresh identities). -/
structure BuildState where
  exp_pos : Nat
  next_tid : Nat
deriving DecidableEq, Repr

/-- `build_terminal(e, ct)`: allocate a Tconnector for the CONNECTOR node and
assign the node a fresh monotonic position id (`c->e->pos = ct->exp_pos++`). -/
def build_terminal (cd : Condesc) (dir : Bool) (multi : Bool) (cost : Int)
    (farthest_word : Nat) (s : BuildState) : Tconnector × BuildState :=
  (⟨s.next_tid, ⟨cd, dir, multi, cost, farthest_word, s.exp_pos⟩⟩,
   ⟨s.exp_pos + 1, s.next_tid + 1⟩)

/-- `catenate(e1, e2, tp)`: copy `e1` into freshly pool-allocated temporary
entries (fresh `tid`s, identical contents) and link the last onto `e2` by
reference; `e2` is not copied.  Order is maintained. -/
def catenate : List Tconnector → List Tconnector → BuildState →
    List Tconnector × BuildState
  | [], e2, s => (e2, s)
  | t :: ts, e2, s =>
    let r := catenate ts e2 { s with next_tid := s.next_tid + 1 }
    ({ t with tid := s.next_tid } :: r.1, r.2)

/-- Inner loop of the AND case of `build_clause`: for a fixed clause `c3` of
the accumulated list, combine with every clause `c4` of the new operand's
list, prepending each combination `⟨catenate(c4.c, c3.c), c3.totcost +
c4.totcost⟩` onto `head`. -/
def and_inner (c3 : Clause) : List Clause → List Clause → BuildState →
    List Clause × BuildState
  | [], head, s => (head, s)
  | c4 :: rest, head, s =>
    let r := catenate c4.c c3.c s
    and_inner c3 rest (⟨r.1, c3.totcost + c4.totcost⟩ :: head) r.2

/-- Outer loop of the AND case of `build_clause`: iterate over the clauses
`c3` of the accumulated list, running the inner loop for each. -/
def and_product : List Clause → List Clause → List Clause → BuildState →
    List Clause × BuildState
  | [], _, head, s => (head, s)
  | c3 :: rest, c2, head, s =>
    let r := and_inner c3 c2 head s
    and_product rest c2 r.1 r.2

mutual
/-- `build_clause(e, ct, c_last)`: expand the expression into its clause
list.  The `c_last` out-parameter only tracks the list tail as an
optimization and is not modelled (appends are direct).  Returns the updated
expression (the `pos` writes of `build_terminal`), the clause list and the
updated counters.  Returns `none` where the C code dies on the null-parameter
`assert`: an OR node with zero operands passes `operand_first == NULL` back
into `build_clause`. -/
def build_clause : Exp → BuildState → Option (Exp × List Clause × BuildState)
  | .CONNECTOR cd dir multi cost fw _, s =>
    let r := build_terminal cd dir multi cost fw s
    some (.CONNECTOR cd dir multi cost fw s.exp_pos, [⟨[r.1], cost⟩], r.2)
  | .AND cost ops, s =>
    match build_and ops [⟨[], 0⟩] s with
    | none => none
    | some (ops', cls, s') =>
      some (.AND cost ops',
            cls.map (fun c1 => { c1 with totcost := c1.totcost + cost }), s')
  | .OR cost ops, s =>
    match ops with
    | .nil => none
    | .cons o1 rest =>
      match build_clause o1 s with
      | none => none
      | some (o1', c1, s1) =>
        match build_or rest s1 with
        | none => none
        | some (rest', crest, s2) =>
          some (.OR cost (.cons o1' rest'),
                (c1 ++ crest).map
                  (fun c1 => { c1 with totcost := c1.totcost + cost }), s2)

/-- The operand loop of the AND case: fold the accumulated clause list with
each operand's clause list as a Cartesian product, in the C code's prepend
order. -/
def build_and : ExpList → List Clause → BuildState →
    Option (ExpList × List Clause × BuildState)
  | .nil, acc, s => some (.nil, acc, s)
  | .cons opd rest, acc, s =>
    match build_clause opd s with
    | none => none
    | some (opd', c2, s') =>
      let r := and_product acc c2 [] s'
      match build_and rest r.1 r.2 with
      | none => none
      | some (rest', out, s2) => some (.cons opd' rest', out, s2)

/-- The operand loop of the OR case: clause lists of the remaining operands,
concatenated in operand order. -/
def build_or : ExpList → BuildState →
    Option (ExpList × List Clause × BuildState)
  | .nil, s => some (.nil, [], s)
  | .cons opd rest, s =>
    match build_clause opd s with
    | none => none
    | some (opd', c1, s') =>
      match build_or rest s' with
      | none => none
      | some (rest', crest, s2) => some (.cons opd' rest', c1 ++ crest, s2)
end

mutual
/-- `count_clause(e)` (dict display code): the number of clauses that
`build_clause` should produce: CONNECTOR ↦ 1, AND ↦ product over operands,
OR ↦ sum over operands. -/
def count_clause : Exp → Nat
  | .CONNECTOR _ _ _ _ _ _ => 1
  | .AND _ ops => count_clause_and ops
  | .OR _ ops => count_clause_or ops

/-- The AND loop of `count_clause`: `cnt = 1; cnt *= count_clause(opd)`. -/
def count_clause_and : ExpList → Nat
  | .nil => 1
  | .cons o r => count_clause o * count_clause_and r

/-- The OR loop of `count_clause`: `cnt = 0; cnt += count_clause(opd)`. -/
def count_clause_or : ExpList → Nat
  | .nil => 0
  | .cons o r => count_clause o + count_clause_or r
end

mutual
/-- The expression contains no OR node with zero operands: the class of
inputs on which `build_clause` does not reach its null-parameter `assert`. -/
def hasNoEmptyOr : Exp → Bool
  | .CONNECTOR _ _ _ _ _ _ => true
  | .AND _ ops => hasNoEmptyOrList ops
  | .OR _ ops =>
    match ops with
    | .nil => false
    | .cons _ _ => hasNoEmptyOrList ops

/-- `hasNoEmptyOr` over an operand list. -/
def hasNoEmptyOrList : ExpList → Bool
  | .nil => true
  | .cons o r => hasNoEmptyOr o && hasNoEmptyOrList r
end

mutual
/-- The `pos` fields of the CONNECTOR leaves of the expression, in
left-to-right order. -/
def leafPosList : Exp → List Nat
  | .CONNECTOR _ _ _ _ _ p => [p]
  | .AND _ ops => leafPosListL ops
  | .OR _ ops => leafPosListL ops

/-- `leafPosList` over an operand list. -/
def leafPosListL : ExpList → List Nat
  | .nil => []
  | .cons h t => leafPosList h ++ leafPosListL t
end

mutual
/-- The expression with every CONNECTOR leaf's `pos` field erased (set to 0):
what remains of a tree when the position ids written by `build_terminal` are
ignored. -/
def erasePos : Exp → Exp
  | .CONNECTOR cd dir multi cost fw _ => .CONNECTOR cd dir multi cost fw 0
  | .AND cost ops => .AND cost (erasePosL ops)
  | .OR cost ops => .OR cost (erasePosL ops)

/-- `erasePos` over an operand list. -/
def erasePosL : ExpList → ExpList
  | .nil => .nil
  | .cons h t => .cons (erasePos h) (erasePosL t)
end

/-- Connector (final, per-sentence pool; the fields of `Connector_struct`
used by this core).  The `next` pointer is represented by the position of the
connector's id in its chain list: `next` is written only while the
connector's own clause is materialized (the jet-building loop of
`build_disjunct` advances `jet[idir]` only over freshly allocated
connectors) and never afterwards, so chains-as-id-lists is faithful.
The `Connector_pool` is created with `zero_out = true`, so a fresh connector
has `shallow = false` and `nearest_word = 0`. -/
structure Connector where
  desc : Condesc
  multi : Bool
  exp_pos : Nat
  farthest_word : Nat
  shallow : Bool
  nearest_word : Int
deriving DecidableEq, Repr

/-- One entry of a disjunct's category array (`Category_cost`).  `cost =
none` models a field the C code never writes (the array is `malloc`ed and
only `category[0].cost` is assigned). -/
structure Category where
  num : Nat
  cost : Option Int
deriving DecidableEq, Repr

/-- Disjunct (the fields of `Disjunct_struct` used by this core).  `left` and
`right` are connector-id chains into the sentence connector store, head
first.  `cost = none` models the top-level cost field being left unwritten
(the `Disjunct_pool` is created with `zero_out = false`, so an unwritten
field holds garbage); on the category-encoded path the code deliberately
does not assign it (`// ndis->cost = cl->totcost; No! clobbers memory!`).
`gword` models the opaque `originating_gword` provenance handle. -/
structure Disjunct where
  left : List Nat
  right : List Nat
  cost : Option Int
  word_string : String
  is_category : Nat
  num_categories : Nat
  num_categories_alloced : Nat
  category : List Category
  gword : Nat
deriving DecidableEq, Repr

/-- State of the per-sentence connector pool during disjunct building:
allocation counter, the connector store, and the Tconnector `tracon` cache
slots (`t->tracon`), modelled as `tid ↦` the materialized chain suffix that
starts at the cached connector.  In C the cache holds the head connector
pointer and the suffix is implied by the `next` links; since `next` links
are never rewritten after the owning clause's walk, and a cache entry is
only ever read by later clauses, caching the whole suffix at the end of the
owning clause's walk is equivalent. -/
structure DisState where
  next_cid : Nat
  conn : Nat → Connector
  tracon : Nat → Option (List Nat)

/-- Intermediate state of one direction during the jet-building loop:
the freshly created `(tid, cid)` pairs in chain order, and the adopted
cached suffix once the direction is sealed (`is_tracon[idir]`). -/
structure WalkDir where
  fresh : List (Nat × Nat)
  sealedTail : Option (List Nat)
deriving DecidableEq, Repr

/-- The final connector chain of one direction: the freshly created
connectors in order, followed by the adopted cached suffix if the direction
was sealed. -/
def chainOf (w : WalkDir) : List Nat :=
  w.fresh.map Prod.snd ++ w.sealedTail.getD []

/-- `connector_new(connector_pool, condesc)` followed by the field copies of
the jet-building loop: a fresh zeroed connector with descriptor, `multi`,
`exp_pos` and `farthest_word` taken from the source node. -/
def connector_new (e : TconnData) : Connector :=
  ⟨e.condesc, e.multi, e.pos, e.farthest_word, false, 0⟩

/-- The jet-building loop of `build_disjunct`: walk the clause's Tconnectors
in order, splitting by direction; skip a direction once sealed; adopt a
cached tracon wholesale (sealing the direction); otherwise allocate a fresh
connector and append it to the direction's chain. -/
def walkTc : List Tconnector → DisState → WalkDir → WalkDir →
    DisState × WalkDir × WalkDir
  | [], s, wl, wr => (s, wl, wr)
  | t :: ts, s, wl, wr =>
    let w := if t.e.dir then wr else wl
    if w.sealedTail.isSome then
      walkTc ts s wl wr
    else
      match s.tracon t.tid with
      | some suffix =>
        let w' : WalkDir := { w with sealedTail := some suffix }
        if t.e.dir then walkTc ts s wl w' else walkTc ts s w' wr
      | none =>
        let cid := s.next_cid
        let s' : DisState :=
          { s with next_cid := cid + 1,
                   conn := fun j => if j = cid then connector_new t.e else s.conn j }
        let w' : WalkDir := { w with fresh := w.fresh ++ [(t.tid, cid)] }
        if t.e.dir then walkTc ts s' wl w' else walkTc ts s' w' wr

/-- Record the `t->tracon = n` cache writes of one direction of a clause's
walk: the Tconnector that created the `p`-th fresh connector caches the
chain suffix starting there.  (In C the pointer is stored at creation time;
it is only read by later clauses, after this clause's chain is complete.) -/
def writeCaches (s : DisState) (w : WalkDir) : DisState :=
  let chain := chainOf w
  { s with tracon := fun tid =>
      match w.fresh.enum.find? (fun pc => pc.2.1 = tid) with
      | some pc => some (chain.drop pc.1)
      | none => s.tracon tid }

/-- One hexadecimal digit, or `none`. -/
def hexDigit (c : Char) : Option Nat :=
  if '0' ≤ c ∧ c ≤ '9' then some (c.toNat - '0'.toNat)
  else if 'a' ≤ c ∧ c ≤ 'f' then some (c.toNat - 'a'.toNat + 10)
  else if 'A' ≤ c ∧ c ≤ 'F' then some (c.toNat - 'A'.toNat + 10)
  else none

/-- Accumulating hexadecimal parse: consume digits while they last. -/
def hexAcc : List Char → Nat → Nat
  | [], acc => acc
  | c :: cs, acc =>
    match hexDigit c with
    | some d => hexAcc cs (16 * acc + d)
    | none => acc

/-- `strtol(wstring, NULL, 16)` as used on category-encoded word strings
(produced as `" %x"`): skip leading spaces, then read hexadecimal digits.
(The optional sign and `0x` prefix of full `strtol` are not exercised by the
category convention and are not modelled.) -/
def strtol16 (s : String) : Nat :=
  hexAcc (s.toList.dropWhile (fun c => c = ' ')) 0

/-- The per-clause body of `build_disjunct`, prepending each materialized
disjunct onto `dis` (final order is the reverse of clause order).  Skips a
clause with no connectors, and a clause whose cost exceeds the cutoff.
Returns `none` where the C code dies on the category sanity `assert`
(category number 0 or ≥ 64*1024 while not on the SAT path). -/
def build_disjunct_go (wstring : String) (cost_cutoff : Int)
    (sat_solver generation : Bool) (gs : Nat) :
    List Clause → List Disjunct → DisState → Option (List Disjunct × DisState)
  | [], dis, s => some (dis, s)
  | cl :: rest, dis, s =>
    if cl.c = [] then build_disjunct_go wstring cost_cutoff sat_solver generation gs rest dis s
    else if cost_cutoff < cl.totcost then
      build_disjunct_go wstring cost_cutoff sat_solver generation gs rest dis s
    else
      let r := walkTc cl.c s ⟨[], none⟩ ⟨[], none⟩
      let s1 := writeCaches (writeCaches r.1 r.2.1) r.2.2
      let ndisLeft := chainOf r.2.1
      let ndisRight := chainOf r.2.2
      if sat_solver ∨ (¬generation ∨ wstring.toList.head? ≠ some ' ') then
        let ndis : Disjunct :=
          ⟨ndisLeft, ndisRight, some cl.totcost, wstring, 0, 0, 0, [], gs⟩
        build_disjunct_go wstring cost_cutoff sat_solver generation gs rest (ndis :: dis) s1
      else
        let num := strtol16 wstring
        if ¬sat_solver ∧ ¬(0 < num ∧ num < 64 * 1024) then none
        else
          let ndis : Disjunct :=
            ⟨ndisLeft, ndisRight, none, "", 1, 1, 4,
             [⟨num, some cl.totcost⟩, ⟨0, none⟩], gs⟩
          build_disjunct_go wstring cost_cutoff sat_solver generation gs rest (ndis :: dis) s1

/-- `build_disjunct(sent, cl, wstring, gs, cost_cutoff, opts)`.  `sat_solver`
models the `USE_SAT_SOLVER` runtime flag and `generation` models
`IS_GENERATION(sent->dict)`.  On the category-encoded path (`is_category`)
the spec's words are followed for the one field the sources only use but do
not define: `is_category` is set (modelled as 1); everything else follows
`prepare/build-disjuncts.c` lines 244-317. -/
def build_disjunct (cls : List Clause) (wstring : String) (gs : Nat)
    (cost_cutoff : Int) (sat_solver generation : Bool) (s : DisState) :
    Option (List Disjunct × DisState) :=
  build_disjunct_go wstring cost_cutoff sat_solver generation gs cls [] s

/-- `build_disjuncts_for_exp` in the conventional case `max_disjuncts = 0`
(no random down-sampling; the `rand_r` trimming path is outside every claim
studied here).  The clause context restarts at zero (`clause_context ct =
{0}`), and the Tconnector pool reuse between calls is modelled by starting
from a cleared tracon cache. -/
def build_disjuncts_for_exp (exp : Exp) (word : String) (gs : Nat)
    (cost_cutoff : Int) (sat_solver generation : Bool) (s : DisState) :
    Option (Exp × List Disjunct × DisState) :=
  match build_clause exp ⟨0, 0⟩ with
  | none => none
  | some (exp', cls, _) =>
    match build_disjunct cls word gs cost_cutoff sat_solver generation
        { s with tracon := fun _ => none } with
    | none => none
    | some (dis, s1) => some (exp', dis, s1)

/-- The all-zero connector backing unallocated store slots. -/
def connector0 : Connector := ⟨⟨0, 0, 0⟩, false, 0, 0, false, 0⟩

/-- A fresh per-sentence connector pool: nothing allocated, empty cache. -/
def initDisState : DisState := ⟨0, fun _ => connector0, fun _ => none⟩

/-- `set_dist_fields(c, w, delta)` (parse/preparation.c): recursively assign
`nearest_word` along the chain so that the last connector gets `w + delta`
and each connector before it one more `delta`; return the head's assigned
value (`w` for an empty chain).  Only the `nearest_word` field is written. -/
def set_dist_fields (st : Nat → Connector) (chain : List Nat) (w delta : Int) :
    (Nat → Connector) × Int :=
  match chain with
  | [] => (st, w)
  | c :: rest =>
    let r := set_dist_fields st rest w delta
    (fun j => if j = c then { r.1 c with nearest_word := r.2 + delta } else r.1 j,
     r.2 + delta)

/-- `d->left->shallow = true` / `d->right->shallow = true`: mark the head of
a non-empty chain shallow. -/
def mark_shallow (st : Nat → Connector) (chain : List Nat) : Nat → Connector :=
  match chain with
  | [] => st
  | c :: _ => fun j => if j = c then { st c with shallow := true } else st j

/-- The per-word loop body of `setup_connectors`: iterate the word's disjunct
list, prepending survivors onto `head` (the surviving list ends up in
reverse order), pruning a disjunct when its left chain would reach below
word 0 or its right chain would reach past the end of the sentence, and
marking the heads of a survivor's chains shallow.  The `||` of the C
condition short-circuits: when the left test prunes, the right chain's
fields are not written. -/
def setup_connectors_word (L w : Nat) :
    List Disjunct → List Disjunct → (Nat → Connector) →
    List Disjunct × (Nat → Connector)
  | [], head, st => (head, st)
  | d :: ds, head, st =>
    let rl := set_dist_fields st d.left w (-1)
    if rl.2 < 0 then setup_connectors_word L w ds head rl.1
    else
      let rr := set_dist_fields rl.1 d.right w 1
      if (L : Int) ≤ rr.2 then setup_connectors_word L w ds head rr.1
      else
        setup_connectors_word L w ds (d :: head)
          (mark_shallow (mark_shallow rr.1 d.left) d.right)

/-- `setup_connectors(sent)`: process every word's disjunct list in order
(word indices `w, w+1, ...` against sentence length `L`), threading the
connector store. -/
def setup_connectors (L : Nat) :
    List (List Disjunct) → Nat → (Nat → Connector) →
    List (List Disjunct) × (Nat → Connector)
  | [], _, st => ([], st)
  | ds :: rest, w, st =>
    let r := setup_connectors_word L w ds [] st
    let rr := setup_connectors L rest (w + 1) r.2
    (r.1 :: rr.1, rr.2)

/-! ### Lemmas about `set_dist_fields` -/

theorem set_dist_fields_ret (st : Nat → Connector) (chain : List Nat) (w delta : Int) :
    (set_dist_fields st chain w delta).2 = w + delta * chain.length := by
  induction chain generalizing st with
  | nil => simp [set_dist_fields]
  | cons c rest ih =>
    simp only [set_dist_fields, ih, List.length_cons]
    push_cast
    ring

theorem set_dist_fields_not_mem (st : Nat → Connector) (chain : List Nat)
    (w delta : Int) (x : Nat) (hx : x ∉ chain) :
    (set_dist_fields st chain w delta).1 x = st x := by
  induction chain generalizing st with
  | nil => rfl
  | cons c rest ih =>
    simp only [List.mem_cons, not_or] at hx
    simp only [set_dist_fields]
    rw [if_neg hx.1]
    exact ih st hx.2

/-- `set_dist_fields` writes only the `nearest_word` field. -/
theorem set_dist_fields_fields (st : Nat → Connector) (chain : List Nat)
    (w delta : Int) (x : Nat) :
    ((set_dist_fields st chain w delta).1 x).desc = (st x).desc ∧
    ((set_dist_fields st chain w delta).1 x).multi = (st x).multi ∧
    ((set_dist_fields st chain w delta).1 x).exp_pos = (st x).exp_pos ∧
    ((set_dist_fields st chain w delta).1 x).farthest_word = (st x).farthest_word ∧
    ((set_dist_fields st chain w delta).1 x).shallow = (st x).shallow := by
  induction chain generalizing st with
  | nil => exact ⟨rfl, rfl, rfl, rfl, rfl⟩
  | cons c rest ih =>
    simp only [set_dist_fields]
    by_cases h : x = c
    · subst h
      rcases ih st with ⟨h1, h2, h3, h4, h5⟩
      simp only [if_pos rfl]
      exact ⟨h1, h2, h3, h4, h5⟩
    · rw [if_neg h]
      exact ih st

/-- The value `set_dist_fields` assigns to the connector at position `i` of a
duplicate-free chain: `w + delta * (length - i)` (the last connector gets
`w + delta`, the head `w + delta * length`). -/
theorem set_dist_fields_get (st : Nat → Connector) (chain : List Nat)
    (w delta : Int) (hnd : chain.Nodup) (i : Nat) (hi : i < chain.length) :
    ((set_dist_fields st chain w delta).1 (chain.get ⟨i, hi⟩)).nearest_word
      = w + delta * ((chain.length : Int) - i) := by
  induction chain generalizing st i with
  | nil => simp at hi
  | cons c rest ih =>
    rcases List.nodup_cons.mp hnd with ⟨hcr, hrest⟩
    match i with
    | 0 =>
      have hc : (c :: rest).get ⟨0, hi⟩ = c := rfl
      rw [hc]
      simp only [set_dist_fields]
      rw [if_pos trivial]
      simp only [set_dist_fields_ret, List.length_cons]
      push_cast
      ring
    | Nat.succ k =>
      have hk : k < rest.length := Nat.lt_of_succ_lt_succ hi
      have hgs : (c :: rest).get ⟨Nat.succ k, hi⟩ = rest.get ⟨k, hk⟩ := rfl
      have hne : rest.get ⟨k, hk⟩ ≠ c := by
        intro hcontra
        exact hcr (hcontra ▸ List.get_mem rest k hk)
      rw [hgs]
      simp only [set_dist_fields]
      rw [if_neg hne]
      rw [ih st hrest k hk]
      simp only [List.length_cons]
      push_cast
      ring

/-- C10 core: the connector at position `i` of a shared chain suffix is
assigned `w + delta * (suffixLength - i)` no matter which chain (prefix) it
is reached through and no matter what the prior store contents were. -/
theorem set_dist_fields_suffix (st : Nat → Connector) (p s : List Nat)
    (w delta : Int) (hnd : (p ++ s).Nodup) (i : Nat) (hi : i < s.length) :
    ((set_dist_fields st (p ++ s) w delta).1 (s.get ⟨i, hi⟩)).nearest_word
      = w + delta * ((s.length : Int) - i) := by
  have hlen : p.length + i < (p ++ s).length := by
    rw [List.length_append]
    omega
  have hget : (p ++ s).get ⟨p.length + i, hlen⟩ = s.get ⟨i, hi⟩ := by
    have e1 : (p ++ s).get ⟨p.length + i, hlen⟩ = getElem (p ++ s) (p.length + i) hlen := rfl
    have e2 : s.get ⟨i, hi⟩ = getElem s i hi := rfl
    rw [e1, e2, List.getElem_append_right (show p.length ≤ p.length + i by omega)]
    simp only [Nat.add_sub_cancel_left]
  have hmain := set_dist_fields_get st (p ++ s) w delta hnd (p.length + i) hlen
  rw [hget] at hmain
  rw [hmain, List.length_append]
  push_cast
  ring

/-! ### Lemmas about `mark_shallow` -/

theorem mark_shallow_nearest (st : Nat → Connector) (chain : List Nat) (x : Nat) :
    ((mark_shallow st chain) x).nearest_word = (st x).nearest_word := by
  cases chain with
  | nil => rfl
  | cons c rest =>
    simp only [mark_shallow]
    by_cases h : x = c
    · rw [if_pos h, h]
    · rw [if_neg h]

theorem mark_shallow_shallow (st : Nat → Connector) (chain : List Nat) (x : Nat) :
    ((mark_shallow st chain) x).shallow = true ↔
      (st x).shallow = true ∨ chain.head? = some x := by
  cases chain with
  | nil => simp [mark_shallow]
  | cons c rest =>
    simp only [mark_shallow, List.head?_cons]
    by_cases h : x = c
    · subst h
      rw [if_pos rfl]
      simp
    · rw [if_neg h]
      have : ¬(some c = some x) := by
        intro hc
        exact h (Option.some.inj hc).symm
      simp [this]

/-- C10: the `nearest_word` that `set_dist_fields` assigns to a connector
depends only on the word index, the direction delta, and the connector's
distance from the end of its chain (the connector at position `i` of a chain
suffix of length `n` gets `w + delta * (n - i)`); consequently a connector
shared as part of a common chain suffix (a tracon) is assigned the same
`nearest_word` by every chain that contains it, regardless of prior store
contents and hence of the order in which the disjuncts are processed. -/
theorem claim_C10 (st1 st2 : Nat → Connector) (p1 p2 s : List Nat)
    (w delta : Int) (h1 : (p1 ++ s).Nodup) (h2 : (p2 ++ s).Nodup)
    (i : Nat) (hi : i < s.length) :
    ((set_dist_fields st1 (p1 ++ s) w delta).1 (s.get ⟨i, hi⟩)).nearest_word
      = w + delta * ((s.length : Int) - i) ∧
    ((set_dist_fields st1 (p1 ++ s) w delta).1 (s.get ⟨i, hi⟩)).nearest_word
      = ((set_dist_fields st2 (p2 ++ s) w delta).1 (s.get ⟨i, hi⟩)).nearest_word := by
  have a1 := set_dist_fields_suffix st1 p1 s w delta h1 i hi
  have a2 := set_dist_fields_suffix st2 p2 s w delta h2 i hi
  exact ⟨a1, a1.trans a2.symm⟩

theorem claim_C10_witness :
    (([5] ++ [1, 2] : List Nat)).Nodup ∧ (([] ++ [1, 2] : List Nat)).Nodup ∧
    (((set_dist_fields (fun _ => connector0) ([5] ++ [1, 2]) 3 (-1)).1
        (([1, 2] : List Nat).get ⟨0, by decide⟩)).nearest_word
      = 3 + (-1) * (((2 : Nat) : Int) - (0 : Nat)) ∧
     ((set_dist_fields (fun _ => connector0) ([5] ++ [1, 2]) 3 (-1)).1
        (([1, 2] : List Nat).get ⟨0, by decide⟩)).nearest_word
      = ((set_dist_fields (fun _ => connector0) ([] ++ [1, 2]) 3 (-1)).1
        (([1, 2] : List Nat).get ⟨0, by decide⟩)).nearest_word) :=
  ⟨by decide, by decide,
   claim_C10 (fun _ => connector0) (fun _ => connector0) [5] [] [1, 2] 3 (-1)
     (by decide) (by decide) 0 (by decide)⟩

/-! ### Lemmas about `setup_connectors_word` -/

/-- Unfolding of the per-disjunct step (the `let`s of the definition expanded,
with the short-circuiting `||` of the prune test made explicit). -/
theorem setup_connectors_word_cons (L w : Nat) (d : Disjunct)
    (ds head : List Disjunct) (st : Nat → Connector) :
    setup_connectors_word L w (d :: ds) head st =
      if (set_dist_fields st d.left w (-1)).2 < 0 then
        setup_connectors_word L w ds head (set_dist_fields st d.left w (-1)).1
      else if (L : Int) ≤
          (set_dist_fields (set_dist_fields st d.left w (-1)).1 d.right w 1).2 then
        setup_connectors_word L w ds head
          (set_dist_fields (set_dist_fields st d.left w (-1)).1 d.right w 1).1
      else
        setup_connectors_word L w ds (d :: head)
          (mark_shallow (mark_shallow
            (set_dist_fields (set_dist_fields st d.left w (-1)).1 d.right w 1).1
            d.left) d.right) := rfl

/-- Disjuncts already on `head` stay in the surviving list. -/
theorem setup_connectors_word_head_sub (L w : Nat) :
    ∀ (ds head : List Disjunct) (st : Nat → Connector) (d : Disjunct),
    d ∈ head → d ∈ (setup_connectors_word L w ds head st).1 := by
  intro ds
  induction ds with
  | nil => intro head st d hd; exact hd
  | cons d0 ds ih =>
    intro head st d hd
    rw [setup_connectors_word_cons]
    by_cases h1 : (set_dist_fields st d0.left w (-1)).2 < 0
    · rw [if_pos h1]; exact ih _ _ d hd
    · rw [if_neg h1]
      by_cases h2 : (L : Int) ≤
          (set_dist_fields (set_dist_fields st d0.left w (-1)).1 d0.right w 1).2
      · rw [if_pos h2]; exact ih _ _ d hd
      · rw [if_neg h2]; exact ih _ _ d (List.mem_cons_of_mem d0 hd)

/-- Shallow flags after one word's processing: a connector is shallow exactly
when it was already shallow or it heads a chain of a surviving disjunct
(where the heads of the incoming `head` accumulator are already marked). -/
theorem setup_connectors_word_shallow (L w : Nat) :
    ∀ (ds head : List Disjunct) (st : Nat → Connector),
    (∀ d ∈ head, ∀ x, (d.left.head? = some x ∨ d.right.head? = some x) →
      (st x).shallow = true) →
    ∀ x, ((setup_connectors_word L w ds head st).2 x).shallow = true ↔
      ((st x).shallow = true ∨
       ∃ d ∈ (setup_connectors_word L w ds head st).1,
         d.left.head? = some x ∨ d.right.head? = some x) := by
  intro ds
  induction ds with
  | nil =>
    intro head st hhead x
    constructor
    · exact fun h => Or.inl h
    · rintro (h | ⟨d, hd, hx⟩)
      · exact h
      · exact hhead d hd x hx
  | cons d0 ds ih =>
    intro head st hhead x
    rw [setup_connectors_word_cons]
    by_cases h1 : (set_dist_fields st d0.left w (-1)).2 < 0
    · rw [if_pos h1]
      have hsh : ∀ y, ((set_dist_fields st d0.left w (-1)).1 y).shallow
          = (st y).shallow := fun y =>
        (set_dist_fields_fields st d0.left w (-1) y).2.2.2.2
      rw [ih _ _ (fun d hd y hy => (hsh y).trans (hhead d hd y hy)) x]
      rw [hsh x]
    · rw [if_neg h1]
      set st1 := (set_dist_fields (set_dist_fields st d0.left w (-1)).1 d0.right w 1).1 with hst1
      have hsh : ∀ y, (st1 y).shallow = (st y).shallow := by
        intro y
        rw [hst1]
        rw [(set_dist_fields_fields _ d0.right w 1 y).2.2.2.2]
        exact (set_dist_fields_fields st d0.left w (-1) y).2.2.2.2
      by_cases h2 : (L : Int) ≤
          (set_dist_fields (set_dist_fields st d0.left w (-1)).1 d0.right w 1).2
      · rw [if_pos h2]
        rw [ih _ _ (fun d hd y hy => (hsh y).trans (hhead d hd y hy)) x]
        rw [hsh x]
      · rw [if_neg h2]
        set st2 := mark_shallow (mark_shallow st1 d0.left) d0.right with hst2
        have hm : ∀ y, (st2 y).shallow = true ↔
            ((st y).shallow = true ∨ d0.left.head? = some y ∨ d0.right.head? = some y) := by
          intro y
          rw [hst2, mark_shallow_shallow, mark_shallow_shallow, hsh y]
          tauto
        have hpre : ∀ d ∈ d0 :: head, ∀ y,
            (d.left.head? = some y ∨ d.right.head? = some y) → (st2 y).shallow = true := by
          intro d hd y hy
          rcases List.mem_cons.mp hd with h | h
          · subst h
            exact (hm y).mpr (Or.inr hy)
          · exact (hm y).mpr (Or.inl (hhead d h y hy))
        rw [ih _ _ hpre x]
        constructor
        · rintro (h | h)
          · rcases (hm x).mp h with h3 | h3
            · exact Or.inl h3
            · refine Or.inr ⟨d0, ?_, h3⟩
              exact setup_connectors_word_head_sub L w ds (d0 :: head) st2 d0 (List.mem_cons_self d0 head)
          · exact Or.inr h
        · rintro (h | h)
          · exact Or.inl ((hm x).mpr (Or.inl h))
          · exact Or.inr h

/-- Shallow flags after processing all words: a connector is shallow exactly
when it was already shallow or it heads a chain of some word's surviving
disjunct. -/
theorem setup_connectors_shallow (L : Nat) :
    ∀ (words : List (List Disjunct)) (w : Nat) (st : Nat → Connector) (x : Nat),
    ((setup_connectors L words w st).2 x).shallow = true ↔
      ((st x).shallow = true ∨
       ∃ sv ∈ (setup_connectors L words w st).1, ∃ d ∈ sv,
         d.left.head? = some x ∨ d.right.head? = some x) := by
  intro words
  induction words with
  | nil =>
    intro w st x
    simp [setup_connectors]
  | cons ds rest ih =>
    intro w st x
    show ((setup_connectors L rest (w + 1) (setup_connectors_word L w ds [] st).2).2 x).shallow = true ↔ _
    rw [ih (w + 1) (setup_connectors_word L w ds [] st).2 x]
    rw [setup_connectors_word_shallow L w ds [] st (by intro d hd; simp at hd) x]
    constructor
    · rintro ((h | ⟨d, hd, hx⟩) | ⟨sv, hsv, d, hd, hx⟩)
      · exact Or.inl h
      · exact Or.inr ⟨(setup_connectors_word L w ds [] st).1, List.mem_cons_self _ _, d, hd, hx⟩
      · exact Or.inr ⟨sv, List.mem_cons_of_mem _ hsv, d, hd, hx⟩
    · rintro (h | ⟨sv, hsv, d, hd, hx⟩)
      · exact Or.inl (Or.inl h)
      · rcases List.mem_cons.mp hsv with h2 | h2
        · exact Or.inl (Or.inr ⟨d, h2 ▸ hd, hx⟩)
        · exact Or.inr ⟨sv, h2, d, hd, hx⟩

/-- C3 (amended): starting from a store with all shallow flags false (the
zeroed connector pool), after preparation a connector has `shallow = true`
exactly when it is the head connector of a surviving disjunct's non-empty
chain.  In particular every surviving chain head is shallow; but a connector
shared between disjuncts through the tracon cache may head one surviving
chain and occur at depth > 0 in another surviving chain, where it then also
carries `shallow = true`. -/
theorem claim_C3_amended (L : Nat) (words : List (List Disjunct)) (w0 : Nat)
    (st0 : Nat → Connector) (h0 : ∀ x, (st0 x).shallow = false) (x : Nat) :
    ((setup_connectors L words w0 st0).2 x).shallow = true ↔
      ∃ sv ∈ (setup_connectors L words w0 st0).1, ∃ d ∈ sv,
        d.left.head? = some x ∨ d.right.head? = some x := by
  rw [setup_connectors_shallow]
  simp [h0 x]

theorem claim_C3_amended_witness :
    connector0.shallow = false ∧
    (((setup_connectors 2 [[⟨[], [7], some 0, "w", 0, 0, 0, [], 0⟩]] 0
        (fun _ => connector0)).2 7).shallow = true ↔
      ∃ sv ∈ (setup_connectors 2 [[⟨[], [7], some 0, "w", 0, 0, 0, [], 0⟩]] 0
        (fun _ => connector0)).1, ∃ d ∈ sv,
        d.left.head? = some 7 ∨ d.right.head? = some 7) :=
  ⟨rfl, claim_C3_amended 2 [[⟨[], [7], some 0, "w", 0, 0, 0, [], 0⟩]] 0
    (fun _ => connector0) (fun _ => rfl) 7⟩

/-- Descriptor constants for concrete scenarios. -/
def descA : Condesc := ⟨1, 1, 0⟩

def descB : Condesc := ⟨2, 2, 0⟩

def descC : Condesc := ⟨3, 3, 0⟩

/-- AND(A+, OR(B+, C-)): its two clauses share the A+ Tconnector by
reference, so the materialized A connector becomes the head of one
disjunct's right chain and the depth-1 connector of the other's. -/
def exC3 : Exp :=
  .AND 0 (.cons (.CONNECTOR descA true false 0 0 0)
    (.cons (.OR 0 (.cons (.CONNECTOR descB true false 0 0 0)
      (.cons (.CONNECTOR descC false false 0 0 0) .nil))) .nil))

/-- The reachable post-preparation state used to refute C3: the full
pipeline on `exC3` as word 1 of a 4-word sentence. -/
def exC3run : List (List Disjunct) × (Nat → Connector) :=
  ((build_disjuncts_for_exp exC3 "x" 0 10 false false initDisState).map
    (fun t => setup_connectors 4 [[], t.2.1, [], []] 0 t.2.2.conn)).getD
    ([], fun _ => connector0)

theorem claim_C3_counterexample :
    ¬ (∀ (r : List (List Disjunct) × (Nat → Connector)),
        some r = (build_disjuncts_for_exp exC3 "x" 0 10 false false initDisState).map
          (fun t => setup_connectors 4 [[], t.2.1, [], []] 0 t.2.2.conn) →
        ∀ sv ∈ r.1, ∀ d ∈ sv,
          ((∀ x, d.left.head? = some x → (r.2 x).shallow = true) ∧
           (∀ x, d.right.head? = some x → (r.2 x).shallow = true)) ∧
          (∀ k (hk : k < d.left.length), 0 < k →
            (r.2 (d.left.get ⟨k, hk⟩)).shallow = false) ∧
          (∀ k (hk : k < d.right.length), 0 < k →
            (r.2 (d.right.get ⟨k, hk⟩)).shallow = false)) := by
  intro h
  have h1 := h exC3run rfl
  have h2 := (h1 (exC3run.1.get ⟨1, by decide⟩) (by decide)
      ((exC3run.1.get ⟨1, by decide⟩).get ⟨1, by decide⟩) (by decide)).2.2
      1 (by decide) (by decide)
  exact absurd h2 (by decide)

/-! ### Suffix-coherent sharing and `nearest_word` correctness (C1, C10) -/

/-- Two id-chains are suffix-coherent when any shared id heads the same
suffix in both: the sharing discipline produced by the tracon cache
(`build_disjunct` only ever shares whole chain tails). -/
def cohPair (c1 c2 : List Nat) : Prop :=
  ∀ i, i < c1.length → ∀ j, j < c2.length →
    (c1.drop i).head? = (c2.drop j).head? → c1.drop i = c2.drop j

instance (c1 c2 : List Nat) : Decidable (cohPair c1 c2) := by
  unfold cohPair
  infer_instance

theorem drop_head_eq_get (l : List Nat) (n : Nat) (h : n < l.length) :
    (l.drop n).head? = some (l.get ⟨n, h⟩) := by
  rw [List.drop_eq_getElem_cons h]
  rfl

theorem cohPair_get (c1 c2 : List Nat) (hco : cohPair c1 c2)
    (i j : Nat) (hi : i < c1.length) (hj : j < c2.length)
    (hx : c1.get ⟨i, hi⟩ = c2.get ⟨j, hj⟩) :
    c1.drop i = c2.drop j := by
  apply hco i hi j hj
  rw [drop_head_eq_get c1 i hi, drop_head_eq_get c2 j hj, hx]

theorem cohPair_len (c1 c2 : List Nat) (hco : cohPair c1 c2)
    (i j : Nat) (hi : i < c1.length) (hj : j < c2.length)
    (hx : c1.get ⟨i, hi⟩ = c2.get ⟨j, hj⟩) :
    c1.length - i = c2.length - j := by
  have hd := cohPair_get c1 c2 hco i j hi hj hx
  have := congrArg List.length hd
  simpa [List.length_drop] using this

theorem cohPair_nodup (c : List Nat) (h : cohPair c c) : c.Nodup := by
  rw [List.nodup_iff_injective_get]
  intro ⟨i, hi⟩ ⟨j, hj⟩ hij
  have hlen := cohPair_len c c h i j hi hj hij
  exact Fin.ext (show i = j by omega)

/-- All of a chain's connectors carry the `nearest_word` values that
`set_dist_fields` computes for word `w` and direction `delta`: position `i`
holds `w + delta * (length - i)`. -/
def distOK (st : Nat → Connector) (c : List Nat) (w : Nat) (delta : Int) : Prop :=
  ∀ i (hi : i < c.length),
    (st (c.get ⟨i, hi⟩)).nearest_word = (w : Int) + delta * ((c.length : Int) - i)

theorem distOK_own (st : Nat → Connector) (c : List Nat) (w : Nat) (delta : Int)
    (hnd : c.Nodup) : distOK (set_dist_fields st c (w : Int) delta).1 c w delta :=
  fun i hi => set_dist_fields_get st c (w : Int) delta hnd i hi

theorem distOK_preserve_coh (st : Nat → Connector) (c cx : List Nat) (w : Nat)
    (delta : Int) (hco : cohPair c cx) (hcox : cohPair cx cx)
    (hd : distOK st c w delta) :
    distOK (set_dist_fields st cx (w : Int) delta).1 c w delta := by
  intro i hi
  by_cases hx : c.get ⟨i, hi⟩ ∈ cx
  · obtain ⟨⟨j, hj⟩, hget⟩ := List.mem_iff_get.mp hx
    rw [← hget, set_dist_fields_get st cx (w : Int) delta (cohPair_nodup cx hcox) j hj]
    have hlen := cohPair_len c cx hco i j hi hj hget.symm
    have : ((cx.length : Int) - j) = ((c.length : Int) - i) := by omega
    rw [this]
  · rw [set_dist_fields_not_mem st cx (w : Int) delta _ hx]
    exact hd i hi

theorem distOK_preserve_disjoint (st : Nat → Connector) (c cx : List Nat)
    (w : Nat) (delta : Int) (wx dx : Int)
    (hdisj : ∀ x ∈ c, x ∉ cx) (hd : distOK st c w delta) :
    distOK (set_dist_fields st cx wx dx).1 c w delta := by
  intro i hi
  rw [set_dist_fields_not_mem st cx wx dx _ (hdisj _ (List.get_mem c i hi))]
  exact hd i hi

theorem distOK_preserve_mark (st : Nat → Connector) (c cx : List Nat)
    (w : Nat) (delta : Int) (hd : distOK st c w delta) :
    distOK (mark_shallow st cx) c w delta := by
  intro i hi
  rw [mark_shallow_nearest]
  exact hd i hi

theorem distOK_congr (st1 st2 : Nat → Connector) (c : List Nat) (w : Nat)
    (delta : Int) (h : ∀ x ∈ c, st2 x = st1 x) (hd : distOK st1 c w delta) :
    distOK st2 c w delta := by
  intro i hi
  rw [h _ (List.get_mem c i hi)]
  exact hd i hi

/-- Every survivor comes from the accumulator or the input list. -/
theorem setup_connectors_word_mem_sub (L w : Nat) :
    ∀ (ds head : List Disjunct) (st : Nat → Connector) (d : Disjunct),
    d ∈ (setup_connectors_word L w ds head st).1 → d ∈ head ∨ d ∈ ds := by
  intro ds
  induction ds with
  | nil => intro head st d hd; exact Or.inl hd
  | cons d0 ds ih =>
    intro head st d hd
    rw [setup_connectors_word_cons] at hd
    by_cases h1 : (set_dist_fields st d0.left w (-1)).2 < 0
    · rw [if_pos h1] at hd
      rcases ih _ _ d hd with h | h
      · exact Or.inl h
      · exact Or.inr (List.mem_cons_of_mem _ h)
    · rw [if_neg h1] at hd
      by_cases h2 : (L : Int) ≤
          (set_dist_fields (set_dist_fields st d0.left w (-1)).1 d0.right w 1).2
      · rw [if_pos h2] at hd
        rcases ih _ _ d hd with h | h
        · exact Or.inl h
        · exact Or.inr (List.mem_cons_of_mem _ h)
      · rw [if_neg h2] at hd
        rcases ih _ _ d hd with h | h
        · rcases List.mem_cons.mp h with h3 | h3
          · exact Or.inr (h3 ▸ List.mem_cons_self _ _)
          · exact Or.inl h3
        · exact Or.inr (List.mem_cons_of_mem _ h)

/-- The per-word preparation invariant: all survivors' chains hold the
`set_dist_fields` values, and their lengths fit the sentence. -/
theorem setup_connectors_word_distOK (L w : Nat) (uL uR : List (List Nat))
    (hLL : ∀ ca ∈ uL, ∀ cb ∈ uL, cohPair ca cb)
    (hRR : ∀ ca ∈ uR, ∀ cb ∈ uR, cohPair ca cb)
    (hLR : ∀ ca ∈ uL, ∀ cb ∈ uR, ∀ x ∈ ca, x ∉ cb) :
    ∀ (ds head : List Disjunct) (st : Nat → Connector),
    (∀ d ∈ ds, d.left ∈ uL ∧ d.right ∈ uR) →
    (∀ d ∈ head, d.left ∈ uL ∧ d.right ∈ uR) →
    (∀ d ∈ head, distOK st d.left w (-1) ∧ distOK st d.right w 1 ∧
      d.left.length ≤ w ∧ w + d.right.length < L) →
    ∀ d ∈ (setup_connectors_word L w ds head st).1,
      (d.left ∈ uL ∧ d.right ∈ uR) ∧
      distOK (setup_connectors_word L w ds head st).2 d.left w (-1) ∧
      distOK (setup_connectors_word L w ds head st).2 d.right w 1 ∧
      d.left.length ≤ w ∧ w + d.right.length < L := by
  intro ds
  induction ds with
  | nil =>
    intro head st _ hheadMem hhead d hd
    exact ⟨hheadMem d hd, (hhead d hd).1, (hhead d hd).2.1,
      (hhead d hd).2.2.1, (hhead d hd).2.2.2⟩
  | cons d0 ds ih =>
    intro head st hds hheadMem hhead
    have hd0 : d0.left ∈ uL ∧ d0.right ∈ uR := hds d0 (List.mem_cons_self _ _)
    have hds' : ∀ d ∈ ds, d.left ∈ uL ∧ d.right ∈ uR :=
      fun d hd => hds d (List.mem_cons_of_mem _ hd)
    have hndL : d0.left.Nodup := cohPair_nodup _ (hLL _ hd0.1 _ hd0.1)
    have hndR : d0.right.Nodup := cohPair_nodup _ (hRR _ hd0.2 _ hd0.2)
    rw [setup_connectors_word_cons]
    by_cases h1 : (set_dist_fields st d0.left w (-1)).2 < 0
    · rw [if_pos h1]
      apply ih head _ hds' hheadMem
      intro d hd
      obtain ⟨hL, hR, hb1, hb2⟩ := hhead d hd
      have hmem := hheadMem d hd
      refine ⟨?_, ?_, hb1, hb2⟩
      · exact distOK_preserve_coh st d.left d0.left w (-1)
          (hLL _ hmem.1 _ hd0.1) (hLL _ hd0.1 _ hd0.1) hL
      · exact distOK_preserve_disjoint st d.right d0.left w 1 (w : Int) (-1)
          (fun x hx hc => hLR d0.left hd0.1 d.right hmem.2 x hc hx) hR
    · rw [if_neg h1]
      have hheadPres : ∀ d ∈ head,
          distOK (set_dist_fields (set_dist_fields st d0.left w (-1)).1 d0.right w 1).1
            d.left w (-1) ∧
          distOK (set_dist_fields (set_dist_fields st d0.left w (-1)).1 d0.right w 1).1
            d.right w 1 ∧
          d.left.length ≤ w ∧ w + d.right.length < L := by
        intro d hd
        obtain ⟨hL, hR, hb1, hb2⟩ := hhead d hd
        have hmem := hheadMem d hd
        have hL1 := distOK_preserve_coh st d.left d0.left w (-1)
          (hLL _ hmem.1 _ hd0.1) (hLL _ hd0.1 _ hd0.1) hL
        have hR1 := distOK_preserve_disjoint st d.right d0.left w 1 (w : Int) (-1)
          (fun x hx hc => hLR d0.left hd0.1 d.right hmem.2 x hc hx) hR
        refine ⟨?_, ?_, hb1, hb2⟩
        · exact distOK_preserve_disjoint _ d.left d0.right w (-1) (w : Int) 1
            (fun x hx hc => hLR d.left hmem.1 d0.right hd0.2 x hx hc) hL1
        · exact distOK_preserve_coh _ d.right d0.right w 1
            (hRR _ hmem.2 _ hd0.2) (hRR _ hd0.2 _ hd0.2) hR1
      by_cases h2 : (L : Int) ≤
          (set_dist_fields (set_dist_fields st d0.left w (-1)).1 d0.right w 1).2
      · rw [if_pos h2]
        exact ih head _ hds' hheadMem hheadPres
      · rw [if_neg h2]
        have hb1 : d0.left.length ≤ w := by
          have hr := set_dist_fields_ret st d0.left (w : Int) (-1)
          omega
        have hb2 : w + d0.right.length < L := by
          have hr := set_dist_fields_ret
            (set_dist_fields st d0.left w (-1)).1 d0.right (w : Int) 1
          omega
        have hd0L2 : distOK
            (set_dist_fields (set_dist_fields st d0.left w (-1)).1 d0.right w 1).1
            d0.left w (-1) :=
          distOK_preserve_disjoint _ d0.left d0.right w (-1) (w : Int) 1
            (fun x hx hc => hLR d0.left hd0.1 d0.right hd0.2 x hx hc)
            (distOK_own st d0.left w (-1) hndL)
        have hd0R2 : distOK
            (set_dist_fields (set_dist_fields st d0.left w (-1)).1 d0.right w 1).1
            d0.right w 1 :=
          distOK_own _ d0.right w 1 hndR
        apply ih (d0 :: head) _ hds'
        · intro d hd
          rcases List.mem_cons.mp hd with h | h
          · exact h ▸ hd0
          · exact hheadMem d h
        · intro d hd
          rcases List.mem_cons.mp hd with h | h
          · subst h
            exact ⟨distOK_preserve_mark _ _ _ _ _ (distOK_preserve_mark _ _ _ _ _ hd0L2),
                   distOK_preserve_mark _ _ _ _ _ (distOK_preserve_mark _ _ _ _ _ hd0R2),
                   hb1, hb2⟩
          · obtain ⟨hL, hR, hc1, hc2⟩ := hheadPres d h
            exact ⟨distOK_preserve_mark _ _ _ _ _ (distOK_preserve_mark _ _ _ _ _ hL),
                   distOK_preserve_mark _ _ _ _ _ (distOK_preserve_mark _ _ _ _ _ hR),
                   hc1, hc2⟩

theorem mark_shallow_not_mem (st : Nat → Connector) (chain : List Nat) (x : Nat)
    (hx : x ∉ chain) : mark_shallow st chain x = st x := by
  cases chain with
  | nil => rfl
  | cons c rest =>
    simp only [mark_shallow]
    rw [if_neg]
    intro h
    exact hx (h ▸ List.mem_cons_self c rest)

theorem setup_connectors_word_store_not_mem (L w : Nat) :
    ∀ (ds head : List Disjunct) (st : Nat → Connector) (x : Nat),
    (∀ d ∈ ds, x ∉ d.left ∧ x ∉ d.right) →
    (setup_connectors_word L w ds head st).2 x = st x := by
  intro ds
  induction ds with
  | nil => intro head st x _; rfl
  | cons d0 ds ih =>
    intro head st x hx
    have hx0 := hx d0 (List.mem_cons_self _ _)
    have hx' : ∀ d ∈ ds, x ∉ d.left ∧ x ∉ d.right :=
      fun d hd => hx d (List.mem_cons_of_mem _ hd)
    rw [setup_connectors_word_cons]
    by_cases h1 : (set_dist_fields st d0.left w (-1)).2 < 0
    · rw [if_pos h1, ih _ _ x hx']
      exact set_dist_fields_not_mem st d0.left w (-1) x hx0.1
    · rw [if_neg h1]
      by_cases h2 : (L : Int) ≤
          (set_dist_fields (set_dist_fields st d0.left w (-1)).1 d0.right w 1).2
      · rw [if_pos h2, ih _ _ x hx']
        rw [set_dist_fields_not_mem _ d0.right w 1 x hx0.2]
        exact set_dist_fields_not_mem st d0.left w (-1) x hx0.1
      · rw [if_neg h2, ih _ _ x hx']
        rw [mark_shallow_not_mem _ d0.right x hx0.2, mark_shallow_not_mem _ d0.left x hx0.1]
        rw [set_dist_fields_not_mem _ d0.right w 1 x hx0.2]
        exact set_dist_fields_not_mem st d0.left w (-1) x hx0.1

theorem setup_connectors_store_not_mem (L : Nat) :
    ∀ (words : List (List Disjunct)) (w : Nat) (st : Nat → Connector) (x : Nat),
    (∀ ds ∈ words, ∀ d ∈ ds, x ∉ d.left ∧ x ∉ d.right) →
    (setup_connectors L words w st).2 x = st x := by
  intro words
  induction words with
  | nil => intro w st x _; rfl
  | cons ds rest ih =>
    intro w st x hx
    show (setup_connectors L rest (w + 1) (setup_connectors_word L w ds [] st).2).2 x = st x
    rw [ih (w + 1) _ x (fun dsx hdsx => hx dsx (List.mem_cons_of_mem _ hdsx))]
    exact setup_connectors_word_store_not_mem L w ds [] st x
      (hx ds (List.mem_cons_self _ _))

/-- Some disjunct of the list contains the connector id in a chain. -/
def chainMem (x : Nat) (ds : List Disjunct) : Prop :=
  ∃ d ∈ ds, x ∈ d.left ∨ x ∈ d.right

instance (x : Nat) (ds : List Disjunct) : Decidable (chainMem x ds) := by
  unfold chainMem
  infer_instance

/-- The sharing discipline inside one word's disjunct list: left chains are
pairwise suffix-coherent, right chains are pairwise suffix-coherent, and no
connector is on both a left and a right chain (a connector's direction is
fixed).  `build_disjunct`'s tracon cache produces exactly this discipline. -/
def wordOk (ds : List Disjunct) : Prop :=
  (∀ d1 ∈ ds, ∀ d2 ∈ ds, cohPair d1.left d2.left) ∧
  (∀ d1 ∈ ds, ∀ d2 ∈ ds, cohPair d1.right d2.right) ∧
  (∀ d1 ∈ ds, ∀ d2 ∈ ds, ∀ x ∈ d1.left, x ∉ d2.right)

instance (ds : List Disjunct) : Decidable (wordOk ds) := by
  unfold wordOk
  infer_instance

/-- No connector id is used by two different words (cross-word sharing does
not happen: the tracon cache is cleared between expansions). -/
def chainsDisjoint (a b : List Disjunct) : Prop :=
  ∀ d1 ∈ a, (∀ x ∈ d1.left, ¬ chainMem x b) ∧ (∀ x ∈ d1.right, ¬ chainMem x b)

instance (a b : List Disjunct) : Decidable (chainsDisjoint a b) := by
  unfold chainsDisjoint
  infer_instance

/-- The sentence-wide sharing discipline. -/
def sentenceOk (words : List (List Disjunct)) : Prop :=
  (∀ ds ∈ words, wordOk ds) ∧ words.Pairwise chainsDisjoint

instance (words : List (List Disjunct)) : Decidable (sentenceOk words) := by
  unfold sentenceOk
  infer_instance

/-- The sentence-level preparation invariant: each surviving disjunct of the
word at offset `k` carries the `set_dist_fields` values with respect to its
own word index, and fits the sentence. -/
theorem setup_connectors_distOK (L : Nat) :
    ∀ (words : List (List Disjunct)) (w0 : Nat) (st : Nat → Connector),
    sentenceOk words →
    ∀ k (hk : k < (setup_connectors L words w0 st).1.length),
    ∀ d ∈ (setup_connectors L words w0 st).1.get ⟨k, hk⟩,
      distOK (setup_connectors L words w0 st).2 d.left (w0 + k) (-1) ∧
      distOK (setup_connectors L words w0 st).2 d.right (w0 + k) 1 ∧
      d.left.length ≤ w0 + k ∧ w0 + k + d.right.length < L := by
  intro words
  induction words with
  | nil =>
    intro w0 st _ k hk
    simp [setup_connectors] at hk
  | cons ds rest ih =>
    intro w0 st hok k hk d hd
    have hwok : wordOk ds := hok.1 ds (List.mem_cons_self _ _)
    have hrok : sentenceOk rest :=
      ⟨fun dsx hdsx => hok.1 dsx (List.mem_cons_of_mem _ hdsx),
       List.Pairwise.sublist ((List.Sublist.refl rest).cons ds) hok.2⟩
    have hdisj : ∀ dsx ∈ rest, chainsDisjoint ds dsx :=
      fun dsx hdsx => List.rel_of_pairwise_cons hok.2 hdsx
    match k with
    | 0 =>
      -- d is a survivor of the first word; values set there, untouched after.
      have hword := setup_connectors_word_distOK L w0
        (ds.map (·.left)) (ds.map (·.right))
        (by
          intro ca hca cb hcb
          obtain ⟨d1, hd1, he1⟩ := List.mem_map.mp hca
          obtain ⟨d2, hd2, he2⟩ := List.mem_map.mp hcb
          exact he1 ▸ he2 ▸ hwok.1 d1 hd1 d2 hd2)
        (by
          intro ca hca cb hcb
          obtain ⟨d1, hd1, he1⟩ := List.mem_map.mp hca
          obtain ⟨d2, hd2, he2⟩ := List.mem_map.mp hcb
          exact he1 ▸ he2 ▸ hwok.2.1 d1 hd1 d2 hd2)
        (by
          intro ca hca cb hcb x hxa hxb
          obtain ⟨d1, hd1, he1⟩ := List.mem_map.mp hca
          obtain ⟨d2, hd2, he2⟩ := List.mem_map.mp hcb
          exact hwok.2.2 d1 hd1 d2 hd2 x (he1 ▸ hxa) (he2 ▸ hxb))
        ds [] st
        (fun dx hdx => ⟨List.mem_map_of_mem _ hdx, List.mem_map_of_mem _ hdx⟩)
        (by intro dx hdx; simp at hdx)
        (by intro dx hdx; simp at hdx)
        d hd
      have hdmem : d ∈ ds :=
        (setup_connectors_word_mem_sub L w0 ds [] st d hd).resolve_left
          (by intro h; simp at h)
      -- the rest of the sentence leaves d's connectors untouched
      have hpres : ∀ x, x ∈ d.left ∨ x ∈ d.right →
          (setup_connectors L rest (w0 + 1) (setup_connectors_word L w0 ds [] st).2).2 x
            = (setup_connectors_word L w0 ds [] st).2 x := by
        intro x hx
        apply setup_connectors_store_not_mem
        intro dsx hdsx d2 hd2
        have hdj := hdisj dsx hdsx d hdmem
        rcases hx with hx | hx
        · have hnc : ¬ chainMem x dsx := hdj.1 x hx
          constructor
          · intro hc; exact hnc ⟨d2, hd2, Or.inl hc⟩
          · intro hc; exact hnc ⟨d2, hd2, Or.inr hc⟩
        · have hnc : ¬ chainMem x dsx := hdj.2 x hx
          constructor
          · intro hc; exact hnc ⟨d2, hd2, Or.inl hc⟩
          · intro hc; exact hnc ⟨d2, hd2, Or.inr hc⟩
      refine ⟨?_, ?_, by simpa using hword.2.2.2.1, by simpa using hword.2.2.2.2⟩
      · apply distOK_congr _ _ _ _ _ (fun x hx => hpres x (Or.inl hx))
        simpa using hword.2.1
      · apply distOK_congr _ _ _ _ _ (fun x hx => hpres x (Or.inr hx))
        simpa using hword.2.2.1
    | Nat.succ k2 =>
      have hk2 : k2 < (setup_connectors L rest (w0 + 1)
          (setup_connectors_word L w0 ds [] st).2).1.length := by
        have : (setup_connectors L (ds :: rest) w0 st).1.length =
            (setup_connectors L rest (w0 + 1)
              (setup_connectors_word L w0 ds [] st).2).1.length + 1 := rfl
        omega
      have hd2 : d ∈ (setup_connectors L rest (w0 + 1)
          (setup_connectors_word L w0 ds [] st).2).1.get ⟨k2, hk2⟩ := hd
      have := ih (w0 + 1) (setup_connectors_word L w0 ds [] st).2 hrok k2 hk2 d hd2
      have harith : w0 + 1 + k2 = w0 + Nat.succ k2 := by omega
      rw [harith] at this
      exact this

/-- C1 (amended): after preparation of a sentence, for every surviving
disjunct `d` of the word at index `w`: the connector at depth `k` (0-based
from the head) of `d`'s left chain of length `m` has `nearest_word =
w - (m - k)` — the LAST connector of the chain reaches `w - 1` and the head
reaches `w - m` — and this value is ≥ 0; symmetrically the connector at
depth `k` of the right chain of length `n` has `nearest_word = w + (n - k)`,
which is < L.  (The claim's `w - 1 - k` and `w + 1 + k` describe head-first
distances; `set_dist_fields` assigns distances from the chain END.)  Holds
under the sharing discipline `sentenceOk` that the tracon cache produces:
suffix-coherent chains, fixed direction per connector, no cross-word
sharing. -/
theorem claim_C1_amended (L : Nat) (words : List (List Disjunct))
    (st0 : Nat → Connector) (hok : sentenceOk words)
    (w : Nat) (hw : w < (setup_connectors L words 0 st0).1.length)
    (d : Disjunct) (hd : d ∈ (setup_connectors L words 0 st0).1.get ⟨w, hw⟩) :
    (∀ k (hk : k < d.left.length),
      ((setup_connectors L words 0 st0).2 (d.left.get ⟨k, hk⟩)).nearest_word
        = (w : Int) - ((d.left.length : Int) - k) ∧
      0 ≤ ((setup_connectors L words 0 st0).2 (d.left.get ⟨k, hk⟩)).nearest_word) ∧
    (∀ k (hk : k < d.right.length),
      ((setup_connectors L words 0 st0).2 (d.right.get ⟨k, hk⟩)).nearest_word
        = (w : Int) + ((d.right.length : Int) - k) ∧
      ((setup_connectors L words 0 st0).2 (d.right.get ⟨k, hk⟩)).nearest_word
        < (L : Int)) := by
  have h := setup_connectors_distOK L words 0 st0 hok w hw d hd
  have hb1 : d.left.length ≤ w := by
    have := h.2.2.1
    omega
  have hb2 : w + d.right.length < L := by
    have := h.2.2.2
    omega
  constructor
  · intro k hk
    have hv := h.1 k hk
    constructor
    · rw [hv]
      push_cast
      ring
    · rw [hv]
      have hcast : ((0 + w : Nat) : Int) = (w : Int) := by push_cast; ring
      rw [hcast]
      omega
  · intro k hk
    have hv := h.2.1 k hk
    constructor
    · rw [hv]
      push_cast
      ring
    · rw [hv]
      have hcast : ((0 + w : Nat) : Int) = (w : Int) := by push_cast; ring
      rw [hcast]
      omega

theorem claim_C1_amended_witness :
    sentenceOk [[⟨[], [3], some 0, "w", 0, 0, 0, [], 0⟩]] ∧
    (((setup_connectors 2 [[⟨[], [3], some 0, "w", 0, 0, 0, [], 0⟩]] 0
        (fun _ => connector0)).2
      ((⟨[], [3], some 0, "w", 0, 0, 0, [], 0⟩ : Disjunct).right.get
        ⟨0, by decide⟩)).nearest_word
      = ((0 : Nat) : Int) +
        (((⟨[], [3], some 0, "w", 0, 0, 0, [], 0⟩ : Disjunct).right.length : Int)
          - (0 : Nat)) ∧
     ((setup_connectors 2 [[⟨[], [3], some 0, "w", 0, 0, 0, [], 0⟩]] 0
        (fun _ => connector0)).2
      ((⟨[], [3], some 0, "w", 0, 0, 0, [], 0⟩ : Disjunct).right.get
        ⟨0, by decide⟩)).nearest_word < ((2 : Nat) : Int)) :=
  ⟨by decide,
   (claim_C1_amended 2 [[⟨[], [3], some 0, "w", 0, 0, 0, [], 0⟩]]
     (fun _ => connector0) (by decide) 0 (by decide)
     ⟨[], [3], some 0, "w", 0, 0, 0, [], 0⟩ (by decide)).2 0 (by decide)⟩

/-- AND(A-, B-): one disjunct whose left chain has two connectors; its head
connector ends up with `nearest_word = w - 2`, not `w - 1`. -/
def exC1 : Exp :=
  .AND 0 (.cons (.CONNECTOR descA false false 0 0 0)
    (.cons (.CONNECTOR descB false false 0 0 0) .nil))

/-- The reachable post-preparation state used to refute C1: the full
pipeline on `exC1` as word 2 of a 4-word sentence. -/
def exC1run : List (List Disjunct) × (Nat → Connector) :=
  ((build_disjuncts_for_exp exC1 "y" 0 10 false false initDisState).map
    (fun t => setup_connectors 4 [[], [], t.2.1, []] 0 t.2.2.conn)).getD
    ([], fun _ => connector0)

theorem claim_C1_counterexample :
    ¬ (∀ (r : List (List Disjunct) × (Nat → Connector)),
        some r = (build_disjuncts_for_exp exC1 "y" 0 10 false false initDisState).map
          (fun t => setup_connectors 4 [[], [], t.2.1, []] 0 t.2.2.conn) →
        ∀ hk : 2 < r.1.length, ∀ d ∈ r.1.get ⟨2, hk⟩,
          (∀ k (hkl : k < d.left.length),
            (r.2 (d.left.get ⟨k, hkl⟩)).nearest_word = (2 : Int) - 1 - k ∧
            0 ≤ (r.2 (d.left.get ⟨k, hkl⟩)).nearest_word) ∧
          (∀ k (hkr : k < d.right.length),
            (r.2 (d.right.get ⟨k, hkr⟩)).nearest_word = (2 : Int) + 1 + k ∧
            (r.2 (d.right.get ⟨k, hkr⟩)).nearest_word < (4 : Int))) := by
  intro h
  have h1 := h exC1run rfl
  have h2 := (h1 (by decide) ((exC1run.1.get ⟨2, by decide⟩).get ⟨0, by decide⟩)
      (by decide)).1 0 (by decide)
  exact absurd h2.1 (by decide)

/-! ### `build_clause` structural facts: failure on empty OR (C7),
clause counts (C5), tree preservation up to `pos` (C4) -/

mutual
/-- A zero-operand OR anywhere in the expression makes `build_clause` fail
(the C code passes `operand_first == NULL` into `build_clause`, dying on the
null-parameter assertion; inside an AND or OR the failure propagates). -/
theorem build_clause_emptyOr (e : Exp) (s : BuildState)
    (h : hasNoEmptyOr e = false) : build_clause e s = none := by
  match e with
  | .CONNECTOR cd dir m cost fw p => simp [hasNoEmptyOr] at h
  | .AND cost ops =>
    have hf : hasNoEmptyOrList ops = false := by simpa [hasNoEmptyOr] using h
    simp [build_clause, build_and_emptyOr ops [⟨[], 0⟩] s hf]
  | .OR cost ops =>
    match ops with
    | .nil => simp [build_clause]
    | .cons o1 rest =>
      by_cases h1 : hasNoEmptyOr o1 = false
      · simp [build_clause, build_clause_emptyOr o1 s h1]
      · have h1t : hasNoEmptyOr o1 = true := by
          revert h1; cases hasNoEmptyOr o1 <;> simp
        have hrest : hasNoEmptyOrList rest = false := by
          have h2 := h
          simp [hasNoEmptyOr, hasNoEmptyOrList, h1t] at h2
          exact h2
        cases hc : build_clause o1 s with
        | none => simp [build_clause, hc]
        | some t =>
          obtain ⟨o1', c1, s1⟩ := t
          simp [build_clause, hc, build_or_emptyOr rest s1 hrest]

/-- `build_and` propagates the empty-OR failure. -/
theorem build_and_emptyOr (ops : ExpList) (acc : List Clause) (s : BuildState)
    (h : hasNoEmptyOrList ops = false) : build_and ops acc s = none := by
  match ops with
  | .nil => simp [hasNoEmptyOrList] at h
  | .cons opd rest =>
    by_cases h1 : hasNoEmptyOr opd = false
    · simp [build_and, build_clause_emptyOr opd s h1]
    · have h1t : hasNoEmptyOr opd = true := by
        revert h1; cases hasNoEmptyOr opd <;> simp
      have hrest : hasNoEmptyOrList rest = false := by
        have h2 := h
        simp [hasNoEmptyOrList, h1t] at h2
        exact h2
      cases hc : build_clause opd s with
      | none => simp [build_and, hc]
      | some t =>
        obtain ⟨opd', c2, s2⟩ := t
        simp [build_and, hc,
          build_and_emptyOr rest (and_product acc c2 [] s2).1
            (and_product acc c2 [] s2).2 hrest]

/-- `build_or` propagates the empty-OR failure. -/
theorem build_or_emptyOr (ops : ExpList) (s : BuildState)
    (h : hasNoEmptyOrList ops = false) : build_or ops s = none := by
  match ops with
  | .nil => simp [hasNoEmptyOrList] at h
  | .cons opd rest =>
    by_cases h1 : hasNoEmptyOr opd = false
    · simp [build_or, build_clause_emptyOr opd s h1]
    · have h1t : hasNoEmptyOr opd = true := by
        revert h1; cases hasNoEmptyOr opd <;> simp
      have hrest : hasNoEmptyOrList rest = false := by
        have h2 := h
        simp [hasNoEmptyOrList, h1t] at h2
        exact h2
      cases hc : build_clause opd s with
      | none => simp [build_or, hc]
      | some t =>
        obtain ⟨opd', c1, s1⟩ := t
        simp [build_or, hc, build_or_emptyOr rest s1 hrest]
end

theorem and_inner_len (c3 : Clause) :
    ∀ (c2 head : List Clause) (s : BuildState),
    (and_inner c3 c2 head s).1.length = c2.length + head.length := by
  intro c2
  induction c2 with
  | nil => intro head s; simp [and_inner]
  | cons c4 rest ih =>
    intro head s
    simp only [and_inner, ih, List.length_cons]
    omega

theorem and_product_len :
    ∀ (acc c2 head : List Clause) (s : BuildState),
    (and_product acc c2 head s).1.length = acc.length * c2.length + head.length := by
  intro acc
  induction acc with
  | nil => intro c2 head s; simp [and_product]
  | cons c3 rest ih =>
    intro c2 head s
    simp only [and_product, ih, and_inner_len, List.length_cons]
    ring

mutual
/-- `build_clause` on an expression with no zero-operand OR succeeds, and
the number of produced clauses is `count_clause`: 1 for a CONNECTOR, the
product over AND operands, the sum over OR operands. -/
theorem build_clause_count (e : Exp) (s : BuildState)
    (h : hasNoEmptyOr e = true) :
    ∃ e' cls s', build_clause e s = some (e', cls, s') ∧
      cls.length = count_clause e := by
  match e with
  | .CONNECTOR cd dir m cost fw p => exact ⟨_, _, _, rfl, rfl⟩
  | .AND cost ops =>
    have hl : hasNoEmptyOrList ops = true := by simpa [hasNoEmptyOr] using h
    obtain ⟨ops', out, s2, heq, hlen⟩ := build_and_count ops [⟨[], 0⟩] s hl
    exact ⟨.AND cost ops',
           out.map (fun c1 => { c1 with totcost := c1.totcost + cost }), s2,
           by simp [build_clause, heq],
           by simp [hlen, count_clause]⟩
  | .OR cost ops =>
    match ops with
    | .nil => simp [hasNoEmptyOr] at h
    | .cons o1 rest =>
      have h1 : hasNoEmptyOr o1 = true ∧ hasNoEmptyOrList rest = true := by
        have h2 := h
        simp [hasNoEmptyOr, hasNoEmptyOrList, Bool.and_eq_true] at h2
        exact h2
      obtain ⟨o1', c1, s1, he1, hl1⟩ := build_clause_count o1 s h1.1
      obtain ⟨rest', crest, s2, he2, hl2⟩ := build_or_count rest s1 h1.2
      exact ⟨.OR cost (.cons o1' rest'),
             (c1 ++ crest).map (fun c1 => { c1 with totcost := c1.totcost + cost }),
             s2,
             by simp [build_clause, he1, he2],
             by simp [hl1, hl2, count_clause, count_clause_or]⟩

/-- `build_and` multiplies the accumulated clause count by the product of
the operand counts. -/
theorem build_and_count (ops : ExpList) (acc : List Clause) (s : BuildState)
    (h : hasNoEmptyOrList ops = true) :
    ∃ ops' out s', build_and ops acc s = some (ops', out, s') ∧
      out.length = acc.length * count_clause_and ops := by
  match ops with
  | .nil => exact ⟨.nil, acc, s, rfl, by simp [count_clause_and]⟩
  | .cons opd rest =>
    have h1 : hasNoEmptyOr opd = true ∧ hasNoEmptyOrList rest = true := by
      have h2 := h
      simp [hasNoEmptyOrList, Bool.and_eq_true] at h2
      exact h2
    obtain ⟨opd', c2, s2, he1, hl1⟩ := build_clause_count opd s h1.1
    obtain ⟨rest', out, s3, he2, hl2⟩ := build_and_count rest
      (and_product acc c2 [] s2).1 (and_product acc c2 [] s2).2 h1.2
    refine ⟨.cons opd' rest', out, s3, ?_, ?_⟩
    · simp [build_and, he1, he2]
    · rw [hl2, and_product_len acc c2 [] s2]
      simp only [count_clause_and, hl1, List.length_nil, Nat.add_zero]
      ring

/-- `build_or` adds the operand counts. -/
theorem build_or_count (ops : ExpList) (s : BuildState)
    (h : hasNoEmptyOrList ops = true) :
    ∃ ops' out s', build_or ops s = some (ops', out, s') ∧
      out.length = count_clause_or ops := by
  match ops with
  | .nil => exact ⟨.nil, [], s, rfl, rfl⟩
  | .cons opd rest =>
    have h1 : hasNoEmptyOr opd = true ∧ hasNoEmptyOrList rest = true := by
      have h2 := h
      simp [hasNoEmptyOrList, Bool.and_eq_true] at h2
      exact h2
    obtain ⟨opd', c1, s1, he1, hl1⟩ := build_clause_count opd s h1.1
    obtain ⟨rest', crest, s2, he2, hl2⟩ := build_or_count rest s1 h1.2
    exact ⟨.cons opd' rest', c1 ++ crest, s2, by simp [build_or, he1, he2],
           by simp [hl1, hl2, count_clause_or]⟩
end

mutual
/-- `build_clause` only rewrites the `pos` fields of CONNECTOR leaves: with
positions erased, the returned tree is the input tree. -/
theorem build_clause_erasePos (e : Exp) (s : BuildState) (e' : Exp)
    (cls : List Clause) (s' : BuildState)
    (h : build_clause e s = some (e', cls, s')) : erasePos e' = erasePos e := by
  match e with
  | .CONNECTOR cd dir m cost fw p =>
    simp only [build_clause, Option.some.injEq, Prod.mk.injEq] at h
    rw [← h.1]
    simp only [erasePos]
  | .AND cost ops =>
    cases hm : build_and ops [⟨[], 0⟩] s with
    | none => simp [build_clause, hm] at h
    | some t =>
      obtain ⟨ops', out, s2⟩ := t
      simp only [build_clause, hm, Option.some.injEq, Prod.mk.injEq] at h
      rw [← h.1]
      simp only [erasePos]
      rw [build_and_erasePos ops [⟨[], 0⟩] s ops' out s2 hm]
  | .OR cost ops =>
    match ops with
    | .nil => simp [build_clause] at h
    | .cons o1 rest =>
      cases hc : build_clause o1 s with
      | none => simp [build_clause, hc] at h
      | some t1 =>
        obtain ⟨o1', c1, s1⟩ := t1
        cases ho : build_or rest s1 with
        | none => simp [build_clause, hc, ho] at h
        | some t2 =>
          obtain ⟨rest', crest, s2⟩ := t2
          simp only [build_clause, hc, ho, Option.some.injEq, Prod.mk.injEq] at h
          rw [← h.1]
          simp only [erasePos, erasePosL]
          rw [build_clause_erasePos o1 s o1' c1 s1 hc,
              build_or_erasePos rest s1 rest' crest s2 ho]

/-- `build_and` only rewrites leaf positions in the operand list. -/
theorem build_and_erasePos (ops : ExpList) (acc : List Clause) (s : BuildState)
    (ops' : ExpList) (out : List Clause) (s' : BuildState)
    (h : build_and ops acc s = some (ops', out, s')) :
    erasePosL ops' = erasePosL ops := by
  match ops with
  | .nil =>
    simp only [build_and, Option.some.injEq, Prod.mk.injEq] at h
    rw [← h.1]
  | .cons opd rest =>
    cases hc : build_clause opd s with
    | none => simp [build_and, hc] at h
    | some t1 =>
      obtain ⟨opd', c2, s2⟩ := t1
      cases hb : build_and rest (and_product acc c2 [] s2).1
          (and_product acc c2 [] s2).2 with
      | none => simp [build_and, hc, hb] at h
      | some t2 =>
        obtain ⟨rest', out2, s3⟩ := t2
        simp only [build_and, hc, hb, Option.some.injEq, Prod.mk.injEq] at h
        rw [← h.1]
        simp only [erasePosL]
        rw [build_clause_erasePos opd s opd' c2 s2 hc,
            build_and_erasePos rest _ _ rest' out2 s3 hb]

/-- `build_or` only rewrites leaf positions in the operand list. -/
theorem build_or_erasePos (ops : ExpList) (s : BuildState)
    (ops' : ExpList) (out : List Clause) (s' : BuildState)
    (h : build_or ops s = some (ops', out, s')) :
    erasePosL ops' = erasePosL ops := by
  match ops with
  | .nil =>
    simp only [build_or, Option.some.injEq, Prod.mk.injEq] at h
    rw [← h.1]
  | .cons opd rest =>
    cases hc : build_clause opd s with
    | none => simp [build_or, hc] at h
    | some t1 =>
      obtain ⟨opd', c1, s1⟩ := t1
      cases ho : build_or rest s1 with
      | none => simp [build_or, hc, ho] at h
      | some t2 =>
        obtain ⟨rest', crest, s2⟩ := t2
        simp only [build_or, hc, ho, Option.some.injEq, Prod.mk.injEq] at h
        rw [← h.1]
        simp only [erasePosL]
        rw [build_clause_erasePos opd s opd' c1 s1 hc,
            build_or_erasePos rest s1 rest' crest s2 ho]
end

/-- C7 (amended): an OR node with zero operands does NOT produce an empty
clause list — it makes `build_clause` fail (the null-parameter assertion on
`operand_first == NULL`, modelled as `none`), and the failure propagates
through any surrounding AND/OR instead of pruning the product. -/
theorem claim_C7_amended (e : Exp) (s : BuildState)
    (h : hasNoEmptyOr e = false) : build_clause e s = none :=
  build_clause_emptyOr e s h

theorem claim_C7_amended_witness :
    hasNoEmptyOr (.OR 0 .nil) = false ∧
    build_clause (.OR 0 .nil) ⟨0, 0⟩ = none :=
  ⟨by decide, claim_C7_amended (.OR 0 .nil) ⟨0, 0⟩ (by decide)⟩

theorem claim_C7_counterexample :
    ¬ ∃ e' s', build_clause (.OR 0 .nil) ⟨0, 0⟩ = some (e', [], s') := by
  rintro ⟨e', s', hsome⟩
  simp [build_clause] at hsome

/-- C5 (amended): for every expression all of whose OR nodes have at least
one operand, `build_clause` succeeds and the number of clauses it returns
equals N(E) where N(CONNECTOR) = 1, N(AND) = product of operand counts (1
for zero operands) and N(OR) = sum of operand counts — the code's own
`count_clause`.  (An expression containing a zero-operand OR instead makes
`build_clause` fail, so no list is returned at all.) -/
theorem claim_C5_amended (e : Exp) (s : BuildState) (h : hasNoEmptyOr e = true) :
    ∃ e' cls s', build_clause e s = some (e', cls, s') ∧
      cls.length = count_clause e :=
  build_clause_count e s h

theorem claim_C5_amended_witness :
    hasNoEmptyOr (.OR 0 (.cons (.CONNECTOR descA true false 0 0 0)
      (.cons (.CONNECTOR descB true false 0 0 0) .nil))) = true ∧
    ∃ e' cls s', build_clause (.OR 0 (.cons (.CONNECTOR descA true false 0 0 0)
      (.cons (.CONNECTOR descB true false 0 0 0) .nil))) ⟨0, 0⟩
      = some (e', cls, s') ∧
      cls.length = count_clause (.OR 0 (.cons (.CONNECTOR descA true false 0 0 0)
        (.cons (.CONNECTOR descB true false 0 0 0) .nil))) :=
  ⟨by decide, claim_C5_amended _ ⟨0, 0⟩ (by decide)⟩

theorem claim_C5_counterexample :
    ¬ ∃ e' cls s', build_clause (.OR 0 .nil) ⟨0, 0⟩ = some (e', cls, s') ∧
      cls.length = count_clause (.OR 0 .nil) := by
  rintro ⟨e', cls, s', hsome, _⟩
  simp [build_clause] at hsome

/-- C4 (amended): clause expansion does not modify the input expression tree
EXCEPT for the `pos` field of CONNECTOR leaves, which `build_terminal`
overwrites with fresh monotonic position ids (`c->e->pos = ct->exp_pos++`):
with positions erased, the tree `build_clause` returns is the tree it was
given. -/
theorem claim_C4_amended (e : Exp) (s : BuildState) (e' : Exp)
    (cls : List Clause) (s' : BuildState)
    (h : build_clause e s = some (e', cls, s')) : erasePos e' = erasePos e :=
  build_clause_erasePos e s e' cls s' h

theorem claim_C4_amended_witness :
    build_clause (.CONNECTOR descA true false 0 0 5) ⟨0, 0⟩
      = some (.CONNECTOR descA true false 0 0 0,
              [⟨[⟨0, ⟨descA, true, false, 0, 0, 0⟩⟩], 0⟩], ⟨1, 1⟩) ∧
    erasePos (.CONNECTOR descA true false 0 0 0)
      = erasePos (.CONNECTOR descA true false 0 0 5) :=
  ⟨rfl, claim_C4_amended (.CONNECTOR descA true false 0 0 5) ⟨0, 0⟩
    (.CONNECTOR descA true false 0 0 0)
    [⟨[⟨0, ⟨descA, true, false, 0, 0, 0⟩⟩], 0⟩] ⟨1, 1⟩ rfl⟩

theorem claim_C4_counterexample :
    ¬ ((build_clause (.CONNECTOR descA true false 0 0 5) ⟨0, 0⟩).map
        (fun x => x.1) = some (.CONNECTOR descA true false 0 0 5)) := by
  decide

/-! ### Ordering of half-links inside a clause (C2) -/

theorem range'_glue (a m n : Nat) :
    List.range' a m ++ List.range' (a + m) n = List.range' a (m + n) := by
  have h := List.range'_append a m n 1
  rw [Nat.one_mul] at h
  rw [Nat.add_comm n m] at h
  exact h

/-- The position ids referenced by a clause all lie in `[lo, hi)` and are
strictly decreasing along the clause. -/
def clausePosOK (lo hi : Nat) (cl : Clause) : Prop :=
  (∀ p ∈ cl.c.map (fun t => t.e.pos), lo ≤ p ∧ p < hi) ∧
  (cl.c.map (fun t => t.e.pos)).Pairwise (fun a b => b < a)

theorem clausePosOK_mono (lo hi lo2 hi2 : Nat) (cl : Clause)
    (h : clausePosOK lo hi cl) (h1 : lo2 ≤ lo) (h2 : hi ≤ hi2) :
    clausePosOK lo2 hi2 cl := by
  refine ⟨fun p hp => ?_, h.2⟩
  have := h.1 p hp
  omega

theorem clausePosOK_totcost (lo hi : Nat) (cl : Clause) (x : Int)
    (h : clausePosOK lo hi cl) : clausePosOK lo hi { cl with totcost := x } := h

theorem catenate_pos_map : ∀ (e1 e2 : List Tconnector) (s : BuildState),
    (catenate e1 e2 s).1.map (fun t => t.e.pos)
      = e1.map (fun t => t.e.pos) ++ e2.map (fun t => t.e.pos) := by
  intro e1
  induction e1 with
  | nil => intro e2 s; rfl
  | cons t ts ih =>
    intro e2 s
    simp only [catenate, List.map_cons, List.cons_append, ih]

theorem catenate_exp_pos : ∀ (e1 e2 : List Tconnector) (s : BuildState),
    (catenate e1 e2 s).2.exp_pos = s.exp_pos := by
  intro e1
  induction e1 with
  | nil => intro e2 s; rfl
  | cons t ts ih => intro e2 s; simp only [catenate, ih]

theorem and_inner_exp_pos (c3 : Clause) : ∀ (c2 head : List Clause) (s : BuildState),
    (and_inner c3 c2 head s).2.exp_pos = s.exp_pos := by
  intro c2
  induction c2 with
  | nil => intro head s; rfl
  | cons c4 rest ih =>
    intro head s
    simp only [and_inner, ih, catenate_exp_pos]

theorem and_product_exp_pos : ∀ (acc c2 head : List Clause) (s : BuildState),
    (and_product acc c2 head s).2.exp_pos = s.exp_pos := by
  intro acc
  induction acc with
  | nil => intro c2 head s; rfl
  | cons c3 rest ih =>
    intro c2 head s
    simp only [and_product, ih, and_inner_exp_pos]

theorem and_inner_posOK (lo mid hi : Nat) (hlm : lo ≤ mid) (hmh : mid ≤ hi)
    (c3 : Clause) (hc3 : clausePosOK lo mid c3) :
    ∀ (c2 head : List Clause) (s : BuildState),
    (∀ c4 ∈ c2, clausePosOK mid hi c4) →
    (∀ cl ∈ head, clausePosOK lo hi cl) →
    ∀ cl ∈ (and_inner c3 c2 head s).1, clausePosOK lo hi cl := by
  intro c2
  induction c2 with
  | nil => intro head s _ hhead cl hcl; exact hhead cl hcl
  | cons c4 rest ih =>
    intro head s hc2 hhead cl hcl
    simp only [and_inner] at hcl
    apply ih _ _ (fun c hc => hc2 c (List.mem_cons_of_mem _ hc)) _ cl hcl
    intro cl2 hcl2
    rcases List.mem_cons.mp hcl2 with h | h
    · subst h
      have hc4 := hc2 c4 (List.mem_cons_self _ _)
      constructor
      · intro p hp
        rw [catenate_pos_map] at hp
        rcases List.mem_append.mp hp with hp | hp
        · have := hc4.1 p hp
          omega
        · have := hc3.1 p hp
          omega
      · show ((catenate c4.c c3.c s).1.map (fun t => t.e.pos)).Pairwise _
        rw [catenate_pos_map, List.pairwise_append]
        refine ⟨hc4.2, hc3.2, ?_⟩
        intro a ha b hb
        have h1 := hc4.1 a ha
        have h2 := hc3.1 b hb
        omega
    · exact hhead cl2 h

theorem and_product_posOK (lo mid hi : Nat) (hlm : lo ≤ mid) (hmh : mid ≤ hi) :
    ∀ (acc c2 head : List Clause) (s : BuildState),
    (∀ c3 ∈ acc, clausePosOK lo mid c3) →
    (∀ c4 ∈ c2, clausePosOK mid hi c4) →
    (∀ cl ∈ head, clausePosOK lo hi cl) →
    ∀ cl ∈ (and_product acc c2 head s).1, clausePosOK lo hi cl := by
  intro acc
  induction acc with
  | nil => intro c2 head s _ _ hhead cl hcl; exact hhead cl hcl
  | cons c3 rest ih =>
    intro c2 head s hacc hc2 hhead cl hcl
    simp only [and_product] at hcl
    exact ih _ _ _ (fun c hc => hacc c (List.mem_cons_of_mem _ hc)) hc2
      (and_inner_posOK lo mid hi hlm hmh c3 (hacc c3 (List.mem_cons_self _ _))
        c2 head s hc2 hhead) cl hcl

mutual
/-- Position discipline of `build_clause`: the updated tree's leaves are
numbered `exp_pos, exp_pos+1, …` in left-to-right order, and each produced
clause references position ids from that range in strictly DECREASING
order (the later operands' half-links come first). -/
theorem build_clause_pos (e : Exp) (s : BuildState) (e' : Exp)
    (cls : List Clause) (s' : BuildState)
    (h : build_clause e s = some (e', cls, s')) :
    (∃ n, s'.exp_pos = s.exp_pos + n ∧
      leafPosList e' = List.range' s.exp_pos n) ∧
    ∀ cl ∈ cls, clausePosOK s.exp_pos s'.exp_pos cl := by
  match e with
  | .CONNECTOR cd dir m cost fw p =>
    simp only [build_clause, build_terminal, Option.some.injEq, Prod.mk.injEq] at h
    obtain ⟨he, hcls, hs⟩ := h
    constructor
    · refine ⟨1, ?_, ?_⟩
      · rw [← hs]
      · rw [← he]
        simp [leafPosList, List.range']
    · intro cl hcl
      rw [← hcls] at hcl
      rcases List.mem_singleton.mp hcl with rfl
      constructor
      · intro p2 hp2
        simp only [List.map_cons, List.map_nil, List.mem_singleton] at hp2
        rw [hp2, ← hs]
        simp
      · simp
  | .AND cost ops =>
    cases hm : build_and ops [⟨[], 0⟩] s with
    | none => simp [build_clause, hm] at h
    | some t =>
      obtain ⟨ops', out, s2⟩ := t
      simp only [build_clause, hm, Option.some.injEq, Prod.mk.injEq] at h
      obtain ⟨he, hcls, hs⟩ := h
      have hb := build_and_pos s.exp_pos ops [⟨[], 0⟩] s ops' out s2 hm
        (le_refl _) (by
          intro cl hcl
          rcases List.mem_singleton.mp hcl with rfl
          exact ⟨by simp, by simp⟩)
      constructor
      · obtain ⟨n, hn, hleaf⟩ := hb.1
        refine ⟨n, by rw [← hs]; exact hn, ?_⟩
        rw [← he]
        simpa [leafPosList] using hleaf
      · intro cl hcl
        rw [← hcls] at hcl
        obtain ⟨cl0, hcl0, rfl⟩ := List.mem_map.mp hcl
        rw [← hs]
        exact clausePosOK_totcost _ _ _ _ (hb.2.2 cl0 hcl0)
  | .OR cost ops =>
    match ops with
    | .nil => simp [build_clause] at h
    | .cons o1 rest =>
      cases hc : build_clause o1 s with
      | none => simp [build_clause, hc] at h
      | some t1 =>
        obtain ⟨o1', c1, s1⟩ := t1
        cases ho : build_or rest s1 with
        | none => simp [build_clause, hc, ho] at h
        | some t2 =>
          obtain ⟨rest', crest, s2⟩ := t2
          simp only [build_clause, hc, ho, Option.some.injEq, Prod.mk.injEq] at h
          obtain ⟨he, hcls, hs⟩ := h
          have hb1 := build_clause_pos o1 s o1' c1 s1 hc
          have hb2 := build_or_pos rest s1 rest' crest s2 ho
          obtain ⟨n1, hn1, hleaf1⟩ := hb1.1
          obtain ⟨n2, hn2, hleaf2⟩ := hb2.1
          constructor
          · refine ⟨n1 + n2, by rw [← hs]; omega, ?_⟩
            rw [← he]
            simp only [leafPosList, leafPosListL]
            rw [hleaf1, hleaf2, hn1, range'_glue]
          · intro cl hcl
            rw [← hcls] at hcl
            obtain ⟨cl0, hcl0, rfl⟩ := List.mem_map.mp hcl
            rw [← hs]
            apply clausePosOK_totcost
            rcases List.mem_append.mp hcl0 with h2 | h2
            · exact clausePosOK_mono _ _ _ _ _ (hb1.2 cl0 h2) (le_refl _) (by omega)
            · exact clausePosOK_mono _ _ _ _ _ (hb2.2 cl0 h2) (by omega) (le_refl _)

/-- Position discipline of `build_and`. -/
theorem build_and_pos (lo : Nat) (ops : ExpList) (acc : List Clause)
    (s : BuildState) (ops' : ExpList) (out : List Clause) (s' : BuildState)
    (h : build_and ops acc s = some (ops', out, s'))
    (hlo : lo ≤ s.exp_pos)
    (hacc : ∀ cl ∈ acc, clausePosOK lo s.exp_pos cl) :
    (∃ n, s'.exp_pos = s.exp_pos + n ∧
      leafPosListL ops' = List.range' s.exp_pos n) ∧
    lo ≤ s'.exp_pos ∧
    ∀ cl ∈ out, clausePosOK lo s'.exp_pos cl := by
  match ops with
  | .nil =>
    simp only [build_and, Option.some.injEq, Prod.mk.injEq] at h
    obtain ⟨he, hout, hs⟩ := h
    refine ⟨⟨0, by rw [← hs]; omega, by rw [← he]; rfl⟩, by rw [← hs]; exact hlo, ?_⟩
    intro cl hcl
    rw [← hout] at hcl
    rw [← hs]
    exact hacc cl hcl
  | .cons opd rest =>
    cases hc : build_clause opd s with
    | none => simp [build_and, hc] at h
    | some t1 =>
      obtain ⟨opd', c2, s2⟩ := t1
      cases hb : build_and rest (and_product acc c2 [] s2).1
          (and_product acc c2 [] s2).2 with
      | none => simp [build_and, hc, hb] at h
      | some t2 =>
        obtain ⟨rest', out2, s3⟩ := t2
        simp only [build_and, hc, hb, Option.some.injEq, Prod.mk.injEq] at h
        obtain ⟨he, hout, hs⟩ := h
        have hb1 := build_clause_pos opd s opd' c2 s2 hc
        obtain ⟨n1, hn1, hleaf1⟩ := hb1.1
        have hmid : (and_product acc c2 [] s2).2.exp_pos = s2.exp_pos :=
          and_product_exp_pos acc c2 [] s2
        have hprod : ∀ cl ∈ (and_product acc c2 [] s2).1,
            clausePosOK lo s2.exp_pos cl := by
          apply and_product_posOK lo s.exp_pos s2.exp_pos hlo (by omega)
            acc c2 [] s2 hacc hb1.2
          intro cl hcl
          simp at hcl
        have hb2 := build_and_pos lo rest (and_product acc c2 [] s2).1
          (and_product acc c2 [] s2).2 rest' out2 s3 hb
          (by rw [hmid]; omega)
          (by rw [hmid]; exact hprod)
        obtain ⟨n2, hn2, hleaf2⟩ := hb2.1
        rw [hmid] at hn2 hleaf2
        refine ⟨⟨n1 + n2, by rw [← hs]; omega, ?_⟩, by rw [← hs]; omega, ?_⟩
        · rw [← he]
          simp only [leafPosListL]
          rw [hleaf1, hleaf2, hn1, range'_glue]
        · intro cl hcl
          rw [← hout] at hcl
          rw [← hs]
          exact hb2.2.2 cl hcl

/-- Position discipline of `build_or`. -/
theorem build_or_pos (ops : ExpList) (s : BuildState) (ops' : ExpList)
    (out : List Clause) (s' : BuildState)
    (h : build_or ops s = some (ops', out, s')) :
    (∃ n, s'.exp_pos = s.exp_pos + n ∧
      leafPosListL ops' = List.range' s.exp_pos n) ∧
    ∀ cl ∈ out, clausePosOK s.exp_pos s'.exp_pos cl := by
  match ops with
  | .nil =>
    simp only [build_or, Option.some.injEq, Prod.mk.injEq] at h
    obtain ⟨he, hout, hs⟩ := h
    refine ⟨⟨0, by rw [← hs]; omega, by rw [← he]; rfl⟩, ?_⟩
    intro cl hcl
    rw [← hout] at hcl
    simp at hcl
  | .cons opd rest =>
    cases hc : build_clause opd s with
    | none => simp [build_or, hc] at h
    | some t1 =>
      obtain ⟨opd', c1, s1⟩ := t1
      cases ho : build_or rest s1 with
      | none => simp [build_or, hc, ho] at h
      | some t2 =>
        obtain ⟨rest', crest, s2⟩ := t2
        simp only [build_or, hc, ho, Option.some.injEq, Prod.mk.injEq] at h
        obtain ⟨he, hout, hs⟩ := h
        have hb1 := build_clause_pos opd s opd' c1 s1 hc
        have hb2 := build_or_pos rest s1 rest' crest s2 ho
        obtain ⟨n1, hn1, hleaf1⟩ := hb1.1
        obtain ⟨n2, hn2, hleaf2⟩ := hb2.1
        refine ⟨⟨n1 + n2, by rw [← hs]; omega, ?_⟩, ?_⟩
        · rw [← he]
          simp only [leafPosListL]
          rw [hleaf1, hleaf2, hn1, range'_glue]
        · intro cl hcl
          rw [← hout] at hcl
          rw [← hs]
          rcases List.mem_append.mp hcl with h2 | h2
          · exact clausePosOK_mono _ _ _ _ _ (hb1.2 cl h2) (le_refl _) (by omega)
          · exact clausePosOK_mono _ _ _ _ _ (hb2.2 cl h2) (by omega) (le_refl _)
end

/-- C2 (amended): within every clause produced by `build_clause`, the
temporary half-link entries occur in the REVERSE of the left-to-right order
of the corresponding CONNECTOR leaves in the expression: position ids are
assigned to the leaves in left-to-right order (the updated tree's
`leafPosList` is the contiguous increasing range starting at the incoming
`exp_pos`), and along every produced clause the referenced position ids are
strictly decreasing (the AND fold puts the later operand's half-links in
front of the earlier ones'). -/
theorem claim_C2_amended (e : Exp) (s : BuildState) (e' : Exp)
    (cls : List Clause) (s' : BuildState)
    (h : build_clause e s = some (e', cls, s')) :
    (∃ n, s'.exp_pos = s.exp_pos + n ∧
      leafPosList e' = List.range' s.exp_pos n) ∧
    ∀ cl ∈ cls, (cl.c.map (fun t => t.e.pos)).Pairwise (fun a b => b < a) := by
  have hb := build_clause_pos e s e' cls s' h
  exact ⟨hb.1, fun cl hcl => (hb.2 cl hcl).2⟩

/-- AND(A+, B+): its single clause lists B's half-link before A's. -/
def exC2 : Exp :=
  .AND 0 (.cons (.CONNECTOR descA true false 0 0 0)
    (.cons (.CONNECTOR descB true false 0 0 0) .nil))

/-- The tree `build_clause` returns for `exC2` (leaves renumbered 0, 1). -/
def exC2tree : Exp :=
  .AND 0 (.cons (.CONNECTOR descA true false 0 0 0)
    (.cons (.CONNECTOR descB true false 0 0 1) .nil))

/-- The single clause `build_clause` returns for `exC2`: B (pos 1) before
A (pos 0). -/
def exC2clause : Clause :=
  ⟨[⟨3, ⟨descB, true, false, 0, 0, 1⟩⟩, ⟨1, ⟨descA, true, false, 0, 0, 0⟩⟩], 0⟩

theorem claim_C2_amended_witness :
    build_clause exC2 ⟨0, 0⟩ = some (exC2tree, [exC2clause], ⟨2, 4⟩) ∧
    ((∃ n, (⟨2, 4⟩ : BuildState).exp_pos = (⟨0, 0⟩ : BuildState).exp_pos + n ∧
        leafPosList exC2tree = List.range' (⟨0, 0⟩ : BuildState).exp_pos n) ∧
     ∀ cl ∈ [exC2clause],
       (cl.c.map (fun t => t.e.pos)).Pairwise (fun a b => b < a)) :=
  ⟨rfl, claim_C2_amended exC2 ⟨0, 0⟩ exC2tree [exC2clause] ⟨2, 4⟩ rfl⟩

theorem claim_C2_counterexample :
    ¬ (((build_clause exC2 ⟨0, 0⟩).map
          (fun x => x.2.1.map (fun cl => cl.c.map (fun t => t.e.pos))))
        = ((build_clause exC2 ⟨0, 0⟩).map
          (fun x => x.2.1.map (fun _ => leafPosList x.1)))) := by
  decide

/-! ### Cost decomposition of clauses (C6) -/

/-- Sum of the per-connector costs of the CONNECTOR leaves referenced by a
clause's half-link entries. -/
def leafCost (cl : Clause) : Int := (cl.c.map (fun t => t.e.cost)).sum

/-- Spec-side inner product loop: pairwise sums of `(leafSum, nodeSum)`
pairs, in the prepend order of `and_inner`. -/
def innerLC (p : Int × Int) : List (Int × Int) → List (Int × Int) → List (Int × Int)
  | [], head => head
  | q :: rest, head => innerLC p rest ((p.1 + q.1, p.2 + q.2) :: head)

/-- Spec-side outer product loop, mirroring `and_product`. -/
def prodLC : List (Int × Int) → List (Int × Int) → List (Int × Int) → List (Int × Int)
  | [], _, head => head
  | p :: rest, c2, head => prodLC rest c2 (innerLC p c2 head)

mutual
/-- Spec-side cost decomposition: for each clause the expansion produces (in
the same order), the pair of (sum of the costs of the CONNECTOR leaves
occurring in it, sum of the costs of the AND/OR nodes that contributed to
it).  Each AND/OR node adds its cost exactly once per clause produced at
that node; CONNECTOR costs go to the leaf sum; AND combines operand pairs
by a Cartesian sum, OR by concatenation of the branches. -/
def specLC : Exp → Option (List (Int × Int))
  | .CONNECTOR _ _ _ cost _ _ => some [(cost, 0)]
  | .AND cost ops =>
    match specLC_and ops [(0, 0)] with
    | none => none
    | some l => some (l.map (fun p => (p.1, p.2 + cost)))
  | .OR cost ops =>
    match ops with
    | .nil => none
    | .cons o1 rest =>
      match specLC o1, specLC_or rest with
      | some l1, some l2 => some ((l1 ++ l2).map (fun p => (p.1, p.2 + cost)))
      | _, _ => none

/-- `specLC` folded over AND operands. -/
def specLC_and : ExpList → List (Int × Int) → Option (List (Int × Int))
  | .nil, acc => some acc
  | .cons opd rest, acc =>
    match specLC opd with
    | none => none
    | some c2 => specLC_and rest (prodLC acc c2 [])

/-- `specLC` concatenated over OR operands. -/
def specLC_or : ExpList → Option (List (Int × Int))
  | .nil => some []
  | .cons opd rest =>
    match specLC opd, specLC_or rest with
    | some l1, some l2 => some (l1 ++ l2)
    | _, _ => none
end

/-- The per-clause cost decomposition relation: the clause's total cost is
leaf sum plus node contribution, and its leaf sum is the recorded one. -/
def costR (cl : Clause) (p : Int × Int) : Prop :=
  cl.totcost = p.1 + p.2 ∧ leafCost cl = p.1

theorem catenate_cost_map : ∀ (e1 e2 : List Tconnector) (s : BuildState),
    (catenate e1 e2 s).1.map (fun t => t.e.cost)
      = e1.map (fun t => t.e.cost) ++ e2.map (fun t => t.e.cost) := by
  intro e1
  induction e1 with
  | nil => intro e2 s; rfl
  | cons t ts ih =>
    intro e2 s
    simp only [catenate, List.map_cons, List.cons_append, ih]

theorem and_inner_costR (c3 : Clause) (p : Int × Int) (hp : costR c3 p) :
    ∀ (c2 head : List Clause) (l2 lh : List (Int × Int)) (s : BuildState),
    List.Forall₂ costR c2 l2 → List.Forall₂ costR head lh →
    List.Forall₂ costR (and_inner c3 c2 head s).1 (innerLC p l2 lh) := by
  intro c2
  induction c2 with
  | nil =>
    intro head l2 lh s h2 hh
    cases h2
    exact hh
  | cons c4 rest ih =>
    intro head l2 lh s h2 hh
    cases h2 with
    | cons hq hrest =>
      simp only [and_inner, innerLC]
      apply ih _ _ _ _ hrest
      apply List.Forall₂.cons _ hh
      constructor
      · show c3.totcost + c4.totcost = _
        have := hp.1
        have := hq.1
        simp only [Prod.fst, Prod.snd] at *
        omega
      · show leafCost ⟨(catenate c4.c c3.c s).1, c3.totcost + c4.totcost⟩ = _
        simp only [leafCost, catenate_cost_map, List.sum_append]
        have h3 := hp.2
        have h4 := hq.2
        simp only [leafCost] at h3 h4
        omega

theorem and_product_costR :
    ∀ (acc c2 head : List Clause) (lacc l2 lh : List (Int × Int)) (s : BuildState),
    List.Forall₂ costR acc lacc → List.Forall₂ costR c2 l2 →
    List.Forall₂ costR head lh →
    List.Forall₂ costR (and_product acc c2 head s).1 (prodLC lacc l2 lh) := by
  intro acc
  induction acc with
  | nil =>
    intro c2 head lacc l2 lh s hacc h2 hh
    cases hacc
    exact hh
  | cons c3 rest ih =>
    intro c2 head lacc l2 lh s hacc h2 hh
    cases hacc with
    | cons hp hrest =>
      simp only [and_product, prodLC]
      exact ih _ _ _ _ _ _ hrest h2 (and_inner_costR c3 _ hp c2 head l2 lh s h2 hh)

theorem costR_map_bump (cost : Int) :
    ∀ (cls : List Clause) (l : List (Int × Int)),
    List.Forall₂ costR cls l →
    List.Forall₂ costR (cls.map (fun c1 => { c1 with totcost := c1.totcost + cost }))
      (l.map (fun p => (p.1, p.2 + cost))) := by
  intro cls l h
  induction h with
  | nil => simp
  | @cons cl p cls2 l2 hr _ ih =>
    simp only [List.map_cons]
    apply List.Forall₂.cons _ ih
    constructor
    · show cl.totcost + cost = p.1 + (p.2 + cost)
      have := hr.1
      omega
    · show leafCost ⟨cl.c, cl.totcost + cost⟩ = p.1
      have := hr.2
      simpa [leafCost] using this

mutual
/-- `build_clause`'s clause costs decompose exactly as `specLC` says: for
every produced clause, `totcost` = (sum of the costs of the CONNECTOR
leaves occurring in it) + (sum of the costs of the contributing AND/OR
nodes, each counted once). -/
theorem build_clause_cost (e : Exp) (s : BuildState) (e' : Exp)
    (cls : List Clause) (s' : BuildState)
    (h : build_clause e s = some (e', cls, s')) :
    ∃ l, specLC e = some l ∧ List.Forall₂ costR cls l := by
  match e with
  | .CONNECTOR cd dir m cost fw p =>
    simp only [build_clause, build_terminal, Option.some.injEq, Prod.mk.injEq] at h
    refine ⟨[(cost, 0)], rfl, ?_⟩
    rw [← h.2.1]
    refine List.Forall₂.cons ⟨by simp, by simp [leafCost]⟩ List.Forall₂.nil
  | .AND cost ops =>
    cases hm : build_and ops [⟨[], 0⟩] s with
    | none => simp [build_clause, hm] at h
    | some t =>
      obtain ⟨ops', out, s2⟩ := t
      simp only [build_clause, hm, Option.some.injEq, Prod.mk.injEq] at h
      obtain ⟨l, hl, hF⟩ := build_and_cost ops [⟨[], 0⟩] s ops' out s2 [(0, 0)] hm
        (List.Forall₂.cons ⟨by simp, by simp [leafCost]⟩ List.Forall₂.nil)
      refine ⟨l.map (fun p => (p.1, p.2 + cost)), ?_, ?_⟩
      · simp only [specLC]
        rw [hl]
      · rw [← h.2.1]
        exact costR_map_bump cost out l hF
  | .OR cost ops =>
    match ops with
    | .nil => simp [build_clause] at h
    | .cons o1 rest =>
      cases hc : build_clause o1 s with
      | none => simp [build_clause, hc] at h
      | some t1 =>
        obtain ⟨o1', c1, s1⟩ := t1
        cases ho : build_or rest s1 with
        | none => simp [build_clause, hc, ho] at h
        | some t2 =>
          obtain ⟨rest', crest, s2⟩ := t2
          simp only [build_clause, hc, ho, Option.some.injEq, Prod.mk.injEq] at h
          obtain ⟨l1, hl1, hF1⟩ := build_clause_cost o1 s o1' c1 s1 hc
          obtain ⟨l2, hl2, hF2⟩ := build_or_cost rest s1 rest' crest s2 ho
          refine ⟨(l1 ++ l2).map (fun p => (p.1, p.2 + cost)), ?_, ?_⟩
          · simp only [specLC]
            rw [hl1, hl2]
          · rw [← h.2.1]
            exact costR_map_bump cost (c1 ++ crest) (l1 ++ l2)
              (List.rel_append hF1 hF2)

/-- Cost decomposition through the AND operand fold. -/
theorem build_and_cost (ops : ExpList) (acc : List Clause) (s : BuildState)
    (ops' : ExpList) (out : List Clause) (s' : BuildState)
    (lacc : List (Int × Int))
    (h : build_and ops acc s = some (ops', out, s'))
    (hacc : List.Forall₂ costR acc lacc) :
    ∃ l, specLC_and ops lacc = some l ∧ List.Forall₂ costR out l := by
  match ops with
  | .nil =>
    simp only [build_and, Option.some.injEq, Prod.mk.injEq] at h
    refine ⟨lacc, rfl, ?_⟩
    rw [← h.2.1]
    exact hacc
  | .cons opd rest =>
    cases hc : build_clause opd s with
    | none => simp [build_and, hc] at h
    | some t1 =>
      obtain ⟨opd', c2, s2⟩ := t1
      cases hb : build_and rest (and_product acc c2 [] s2).1
          (and_product acc c2 [] s2).2 with
      | none => simp [build_and, hc, hb] at h
      | some t2 =>
        obtain ⟨rest', out2, s3⟩ := t2
        simp only [build_and, hc, hb, Option.some.injEq, Prod.mk.injEq] at h
        obtain ⟨l2, hl2, hF2⟩ := build_clause_cost opd s opd' c2 s2 hc
        obtain ⟨l3, hl3, hF3⟩ := build_and_cost rest (and_product acc c2 [] s2).1
          (and_product acc c2 [] s2).2 rest' out2 s3 (prodLC lacc l2 []) hb
          (and_product_costR acc c2 [] lacc l2 [] s2 hacc hF2 List.Forall₂.nil)
        refine ⟨l3, ?_, ?_⟩
        · simp only [specLC_and]
          rw [hl2]
          exact hl3
        · rw [← h.2.1]
          exact hF3

/-- Cost decomposition through the OR operand concatenation. -/
theorem build_or_cost (ops : ExpList) (s : BuildState) (ops' : ExpList)
    (out : List Clause) (s' : BuildState)
    (h : build_or ops s = some (ops', out, s')) :
    ∃ l, specLC_or ops = some l ∧ List.Forall₂ costR out l := by
  match ops with
  | .nil =>
    simp only [build_or, Option.some.injEq, Prod.mk.injEq] at h
    refine ⟨[], rfl, ?_⟩
    rw [← h.2.1]
    exact List.Forall₂.nil
  | .cons opd rest =>
    cases hc : build_clause opd s with
    | none => simp [build_or, hc] at h
    | some t1 =>
      obtain ⟨opd', c1, s1⟩ := t1
      cases ho : build_or rest s1 with
      | none => simp [build_or, hc, ho] at h
      | some t2 =>
        obtain ⟨rest', crest, s2⟩ := t2
        simp only [build_or, hc, ho, Option.some.injEq, Prod.mk.injEq] at h
        obtain ⟨l1, hl1, hF1⟩ := build_clause_cost opd s opd' c1 s1 hc
        obtain ⟨l2, hl2, hF2⟩ := build_or_cost rest s1 rest' crest s2 ho
        refine ⟨l1 ++ l2, ?_, ?_⟩
        · simp only [specLC_or]
          rw [hl1, hl2]
        · rw [← h.2.1]
          exact List.rel_append hF1 hF2
end

/-- C6: for every clause produced by `build_clause(E)`, the clause's total
cost equals the sum of the costs of the CONNECTOR leaves occurring in it
plus the cost of every AND and OR node that contributed to that clause,
each contributing node's cost counted exactly once — as recorded by the
structural decomposition `specLC`, which pairs every produced clause (in
order) with its leaf-cost sum and its AND/OR-node contribution. -/
theorem claim_C6 (e : Exp) (s : BuildState) (e' : Exp) (cls : List Clause)
    (s' : BuildState) (h : build_clause e s = some (e', cls, s')) :
    ∃ l, specLC e = some l ∧ List.Forall₂ costR cls l :=
  build_clause_cost e s e' cls s' h

/-- OR(cost 1, A+(cost 2), AND(cost 3, B+(cost 4), C-(cost 5))): clauses
with costs 3 = 2+1 and 13 = (4+5)+(3+1). -/
def exC6 : Exp :=
  .OR 1 (.cons (.CONNECTOR descA true false 2 0 0)
    (.cons (.AND 3 (.cons (.CONNECTOR descB true false 4 0 0)
      (.cons (.CONNECTOR descC false false 5 0 0) .nil))) .nil))

theorem claim_C6_witness :
    build_clause exC6 ⟨0, 0⟩ = some
      (.OR 1 (.cons (.CONNECTOR descA true false 2 0 0)
        (.cons (.AND 3 (.cons (.CONNECTOR descB true false 4 0 1)
          (.cons (.CONNECTOR descC false false 5 0 2) .nil))) .nil)),
       [⟨[⟨0, ⟨descA, true, false, 2, 0, 0⟩⟩], 3⟩,
        ⟨[⟨4, ⟨descC, false, false, 5, 0, 2⟩⟩,
          ⟨2, ⟨descB, true, false, 4, 0, 1⟩⟩], 13⟩],
       ⟨3, 5⟩) ∧
    ∃ l, specLC exC6 = some l ∧ List.Forall₂ costR
      [⟨[⟨0, ⟨descA, true, false, 2, 0, 0⟩⟩], 3⟩,
       ⟨[⟨4, ⟨descC, false, false, 5, 0, 2⟩⟩,
         ⟨2, ⟨descB, true, false, 4, 0, 1⟩⟩], 13⟩] l :=
  ⟨rfl, claim_C6 exC6 ⟨0, 0⟩ _ _ ⟨3, 5⟩ rfl⟩

/-! ### The category-encoded finalization path of `build_disjunct` (C9) -/

/-- Unfolding of the per-clause step of `build_disjunct_go` (`let`s
inlined). -/
theorem build_disjunct_go_cons (wstring : String) (cost_cutoff : Int)
    (sat_solver generation : Bool) (gs : Nat) (cl : Clause)
    (rest : List Clause) (dis : List Disjunct) (s : DisState) :
    build_disjunct_go wstring cost_cutoff sat_solver generation gs
        (cl :: rest) dis s =
      if cl.c = [] then
        build_disjunct_go wstring cost_cutoff sat_solver generation gs rest dis s
      else if cost_cutoff < cl.totcost then
        build_disjunct_go wstring cost_cutoff sat_solver generation gs rest dis s
      else if sat_solver ∨ (¬generation ∨ wstring.toList.head? ≠ some ' ') then
        build_disjunct_go wstring cost_cutoff sat_solver generation gs rest
          (⟨chainOf (walkTc cl.c s ⟨[], none⟩ ⟨[], none⟩).2.1,
            chainOf (walkTc cl.c s ⟨[], none⟩ ⟨[], none⟩).2.2,
            some cl.totcost, wstring, 0, 0, 0, [], gs⟩ :: dis)
          (writeCaches (writeCaches (walkTc cl.c s ⟨[], none⟩ ⟨[], none⟩).1
            (walkTc cl.c s ⟨[], none⟩ ⟨[], none⟩).2.1)
            (walkTc cl.c s ⟨[], none⟩ ⟨[], none⟩).2.2)
      else if ¬sat_solver ∧
          ¬(0 < strtol16 wstring ∧ strtol16 wstring < 64 * 1024) then none
      else
        build_disjunct_go wstring cost_cutoff sat_solver generation gs rest
          (⟨chainOf (walkTc cl.c s ⟨[], none⟩ ⟨[], none⟩).2.1,
            chainOf (walkTc cl.c s ⟨[], none⟩ ⟨[], none⟩).2.2,
            none, "", 1, 1, 4,
            [⟨strtol16 wstring, some cl.totcost⟩, ⟨0, none⟩], gs⟩ :: dis)
          (writeCaches (writeCaches (walkTc cl.c s ⟨[], none⟩ ⟨[], none⟩).1
            (walkTc cl.c s ⟨[], none⟩ ⟨[], none⟩).2.1)
            (walkTc cl.c s ⟨[], none⟩ ⟨[], none⟩).2.2) := rfl

/-- Category-path invariant of the per-clause loop: with `sat_solver` off,
generation mode on and a space-headed word string, every disjunct the loop
adds is category-encoded, keeps the top-level cost unwritten, and stores
the accumulated cost of one of the clauses (one with cost within the
cutoff) in `category[0].cost`. -/
theorem build_disjunct_go_cat (wstring : String) (cost_cutoff : Int)
    (gs : Nat) (cls0 : List Clause)
    (hsp : wstring.toList.head? = some ' ') :
    ∀ (cls : List Clause) (dis : List Disjunct) (s : DisState)
      (out : List Disjunct) (s' : DisState),
    (∀ cl ∈ cls, cl ∈ cls0) →
    build_disjunct_go wstring cost_cutoff false true gs cls dis s
      = some (out, s') →
    (∀ d ∈ dis, d.is_category = 1 ∧ d.cost = none ∧
      ∃ cl ∈ cls0, d.category = [⟨strtol16 wstring, some cl.totcost⟩, ⟨0, none⟩] ∧
        cl.totcost ≤ cost_cutoff) →
    ∀ d ∈ out, d.is_category = 1 ∧ d.cost = none ∧
      ∃ cl ∈ cls0, d.category = [⟨strtol16 wstring, some cl.totcost⟩, ⟨0, none⟩] ∧
        cl.totcost ≤ cost_cutoff := by
  intro cls
  induction cls with
  | nil =>
    intro dis s out s' _ h hdis
    simp only [build_disjunct_go, Option.some.injEq, Prod.mk.injEq] at h
    intro d hd
    rw [← h.1] at hd
    exact hdis d hd
  | cons cl rest ih =>
    intro dis s out s' hsub h hdis
    have hsub' : ∀ c ∈ rest, c ∈ cls0 :=
      fun c hc => hsub c (List.mem_cons_of_mem _ hc)
    rw [build_disjunct_go_cons] at h
    by_cases h1 : cl.c = []
    · rw [if_pos h1] at h
      exact ih dis s out s' hsub' h hdis
    · rw [if_neg h1] at h
      by_cases h2 : cost_cutoff < cl.totcost
      · rw [if_pos h2] at h
        exact ih dis s out s' hsub' h hdis
      · rw [if_neg h2] at h
        have hsp2 : wstring.data.head? = some ' ' := hsp
        have hcond : ¬ (false = true ∨ (¬true = true ∨
            wstring.toList.head? ≠ some ' ')) := by
          simp [hsp, hsp2]
        rw [if_neg hcond] at h
        by_cases h3 : ¬false = true ∧
            ¬(0 < strtol16 wstring ∧ strtol16 wstring < 64 * 1024)
        · rw [if_pos h3] at h
          exact absurd h (by simp)
        · rw [if_neg h3] at h
          apply ih _ _ out s' hsub' h
          intro d hd
          rcases List.mem_cons.mp hd with hdd | hdd
          · subst hdd
            exact ⟨rfl, rfl, cl, hsub cl (List.mem_cons_self _ _), rfl, by omega⟩
          · exact hdis d hdd

/-- C9: when `build_disjunct` materializes clauses for a category-encoded
word (word string whose first byte is a space, in generation mode, off the
SAT path), every produced disjunct is category-encoded, stores the
originating clause's accumulated cost only in `category[0].cost` of the
two-entry category array, and the top-level `cost` field is never written
(kept `none` in the model; the C code deliberately skips the assignment —
`// ndis->cost = cl->totcost; No! clobbers memory!`). -/
theorem claim_C9 (cls : List Clause) (wstring : String) (gs : Nat)
    (cost_cutoff : Int) (s : DisState) (dis : List Disjunct) (s' : DisState)
    (hsp : wstring.toList.head? = some ' ')
    (h : build_disjunct cls wstring gs cost_cutoff false true s
      = some (dis, s')) :
    ∀ d ∈ dis, d.is_category = 1 ∧ d.cost = none ∧
      ∃ cl ∈ cls, d.category = [⟨strtol16 wstring, some cl.totcost⟩, ⟨0, none⟩] ∧
        cl.totcost ≤ cost_cutoff := by
  apply build_disjunct_go_cat wstring cost_cutoff gs cls hsp cls [] s dis s'
    (fun c hc => hc) h
  intro d hd
  simp at hd

theorem claim_C9_witness :
    (" 1a" : String).toList.head? = some ' ' ∧
    (∀ d ∈ ((build_disjunct [⟨[⟨0, ⟨descA, true, false, 0, 0, 0⟩⟩], 2⟩]
        " 1a" 0 5 false true initDisState).getD ([], initDisState)).1,
      d.is_category = 1 ∧ d.cost = none ∧
      ∃ cl ∈ [(⟨[⟨0, ⟨descA, true, false, 0, 0, 0⟩⟩], 2⟩ : Clause)],
        d.category = [⟨strtol16 " 1a", some cl.totcost⟩, ⟨0, none⟩] ∧
          cl.totcost ≤ 5) :=
  ⟨rfl, claim_C9 [⟨[⟨0, ⟨descA, true, false, 0, 0, 0⟩⟩], 2⟩] " 1a" 0 5
    initDisState _ _ rfl rfl⟩

/-! ### Tracon set (connector-chain interner, C8)

The hash set over connector chains of `tracon-set.c`.  A chain is modelled
as the list of connectors reachable from its head (`next` chain).  The
`clist_slot` table is a list of `size` slots.  Modelled from the spec where
the sources only use but do not define it (const-prime.h): the table size
cycles through a fixed strictly increasing sequence of primes `s_prime`,
and `mod_func` is reduction modulo the current size.  The unbounded C loop
of `find_place` gets explicit fuel; the theorems take successful
termination as a hypothesis. -/

/-- Modelled from the spec: the fixed prime size sequence of const-prime.h
("size cycles through a fixed sequence of primes"; the concrete values are
not part of the sources — any strictly increasing primes serve). -/
def s_prime (i : Nat) : Nat :=
  [11, 23, 47, 97, 199, 401, 809, 1621, 3251].getD i 3251

/-- Hash slot (`clist_slot`): the cached hash and the chain reference. -/
structure ClistSlot where
  hash : Nat
  clist : Option (List Connector)
deriving DecidableEq, Repr

/-- `Tracon_set` (tracon-set.h): prime index, current size, slot table,
entry count and the shallow-discriminating mode flag. -/
structure TraconSet where
  prime_idx : Nat
  size : Nat
  table : List ClistSlot
  count : Nat
  shallow : Bool
deriving DecidableEq, Repr

/-- The 32-bit truncation of C `unsigned int` arithmetic. -/
def UINT_TRUNC : Nat := 4294967296

/-- One loop iteration of `hash_connectors`:
`accum = (k * accum) + (uc_num << 18) + (multi << 31) + lc_letters`,
in wrapping 32-bit arithmetic. -/
def hash_step (k : Nat) (accum : Nat) (c : Connector) : Nat :=
  (k * accum + c.desc.uc_num * 262144 + (if c.multi then 2147483648 else 0)
    + c.desc.lc_letters) % UINT_TRUNC

/-- The shallow flag of a chain's head connector (false for the empty
chain, which cannot occur: `tracon_set_add` asserts a non-null list). -/
def headShallow (c : List Connector) : Bool :=
  (c.head?.map Connector.shallow).getD false

/-- `hash_connectors(k, c, shallow)`: polynomial hash over the chain,
seeded with `shallow && c->shallow`. -/
def hash_connectors (k : Nat) (c : List Connector) (shallowMode : Bool) : Nat :=
  c.foldl (hash_step k) (if shallowMode && headShallow c then 1 else 0)

/-- `primary_hash_connectors`: multiplier 7. -/
def primary_hash_connectors (c : List Connector) (ss : TraconSet) : Nat :=
  hash_connectors 7 c ss.shallow

/-- `stride_hash_connectors`: multiplier 17, reduced by `mod_func`, forced
nonzero. -/
def stride_hash_connectors (c : List Connector) (ss : TraconSet) : Nat :=
  let accum := hash_connectors 17 c ss.shallow % ss.size
  if accum = 0 then 1 else accum

/-- `connector_equal`: descriptor identity and multi flag. -/
def connector_equal (c1 c2 : Connector) : Bool :=
  c1.desc == c2.desc && c1.multi == c2.multi

/-- `connector_list_equal`: pointwise `connector_equal`, same length. -/
def connector_list_equal : List Connector → List Connector → Bool
  | c1 :: r1, c2 :: r2 => connector_equal c1 c2 && connector_list_equal r1 r2
  | [], [] => true
  | _, _ => false

/-- The slot at an index (out-of-range reads give an empty slot; all
accesses stay in range). -/
def slotAt (ss : TraconSet) (i : Nat) : ClistSlot :=
  ss.table.getD i ⟨0, none⟩

/-- `place_found`: an empty slot always matches; a filled slot matches when
the cached hash agrees, the chains are exactly equal, and (in shallow mode)
the heads' shallow flags agree. -/
def place_found (c : List Connector) (slot : ClistSlot) (h : Nat)
    (ss : TraconSet) : Bool :=
  match slot with
  | ⟨_, none⟩ => true
  | ⟨shash, some cl⟩ =>
    if h != shash then false
    else if !connector_list_equal cl c then false
    else if ss.shallow && (headShallow cl != headShallow c) then false
    else connector_list_equal cl c

/-- The probe loop of `find_place`: `key += s; if (key >= size) key %= size`
then test, with explicit fuel. -/
def find_place_go (c : List Connector) (h : Nat) (ss : TraconSet)
    (stride : Nat) : Nat → Nat → Option Nat
  | _, 0 => none
  | key, fuel + 1 =>
    let key2 := key + stride
    let key3 := if ss.size ≤ key2 then key2 % ss.size else key2
    if place_found c (slotAt ss key3) h ss then some key3
    else find_place_go c h ss stride key3 fuel

/-- `find_place`: start at `h mod size`, then double-hash probe. -/
def find_place (c : List Connector) (h : Nat) (ss : TraconSet) (fuel : Nat) :
    Option Nat :=
  let key := h % ss.size
  if place_found c (slotAt ss key) h ss then some key
  else find_place_go c h ss (stride_hash_connectors c ss) key fuel

/-- Overwrite a slot of the table. -/
def place_slot (ss : TraconSet) (p : Nat) (slot : ClistSlot) : TraconSet :=
  { ss with table := ss.table.set p slot }

/-- `grow_table`: move to the next prime size and rehash every filled slot,
in table order, into the fresh table. -/
def grow_table (ss : TraconSet) (fuel : Nat) : Option TraconSet :=
  let size2 := s_prime (ss.prime_idx + 1)
  ss.table.foldl
    (fun acc slot =>
      match acc with
      | none => none
      | some t =>
        match slot.clist with
        | none => some t
        | some cl =>
          match find_place cl slot.hash t fuel with
          | none => none
          | some p => some (place_slot t p slot))
    (some ⟨ss.prime_idx + 1, size2, List.replicate size2 ⟨0, none⟩,
           ss.count, ss.shallow⟩)

/-- `tracon_set_create()`: first prime size, empty table, shallow off. -/
def tracon_set_create : TraconSet :=
  ⟨0, s_prime 0, List.replicate (s_prime 0) ⟨0, none⟩, 0, false⟩

/-- `tracon_set_shallow(shallow, ss)`. -/
def tracon_set_shallow (shallowMode : Bool) (ss : TraconSet) : TraconSet :=
  { ss with shallow := shallowMode }

/-- `tracon_set_add(clist, ss)`: grow when more than 3/8 full, then probe;
returns the slot index (the C code returns `&table[p].clist`) and the
updated set — on a fresh slot the cached hash is stored and the count
bumped, and the caller MUST fill the slot.  The null-list assertion is
modelled as failure. -/
def tracon_set_add (clist : List Connector) (ss : TraconSet) (fuel : Nat) :
    Option (Nat × TraconSet) :=
  if clist = [] then none
  else
    match (if 8 * ss.count > 3 * ss.size then grow_table ss fuel else some ss) with
    | none => none
    | some t =>
      match find_place clist (primary_hash_connectors clist t) t fuel with
      | none => none
      | some p =>
        if (slotAt t p).clist ≠ none then some (p, t)
        else some (p, { t with
          table := t.table.set p ⟨primary_hash_connectors clist t, none⟩,
          count := t.count + 1 })

/-- The caller's mandatory fill of a fresh slot with the canonical chain. -/
def tracon_set_fill (p : Nat) (clist : List Connector) (ss : TraconSet) :
    TraconSet :=
  { ss with table := ss.table.set p ⟨(slotAt ss p).hash, some clist⟩ }

/-- The documented usage of the API: add, then fill the slot if it was
empty. -/
def tracon_insert (clist : List Connector) (ss : TraconSet) (fuel : Nat) :
    Option (Nat × TraconSet) :=
  match tracon_set_add clist ss fuel with
  | none => none
  | some (p, t) =>
    if (slotAt t p).clist = none then some (p, tracon_set_fill p clist t)
    else some (p, t)

/-- Chain equality as the tracon set distinguishes it: same length with
descriptor identity and multi flag pointwise, and, in shallow-discriminating
mode, equal `shallow` on the heads. -/
def chainEq (mode : Bool) (c1 c2 : List Connector) : Prop :=
  connector_list_equal c1 c2 = true ∧
  (mode = true → headShallow c1 = headShallow c2)

instance (mode : Bool) (c1 c2 : List Connector) : Decidable (chainEq mode c1 c2) := by
  unfold chainEq
  infer_instance

theorem connector_equal_iff (c1 c2 : Connector) :
    connector_equal c1 c2 = true ↔ c1.desc = c2.desc ∧ c1.multi = c2.multi := by
  simp [connector_equal]

theorem connector_list_equal_refl : ∀ l : List Connector,
    connector_list_equal l l = true := by
  intro l
  induction l with
  | nil => rfl
  | cons c r ih =>
    simp only [connector_list_equal, Bool.and_eq_true]
    exact ⟨(connector_equal_iff c c).mpr ⟨rfl, rfl⟩, ih⟩

theorem connector_list_equal_symm : ∀ l1 l2 : List Connector,
    connector_list_equal l1 l2 = true → connector_list_equal l2 l1 = true := by
  intro l1
  induction l1 with
  | nil =>
    intro l2 h
    cases l2 with
    | nil => rfl
    | cons c r => simp [connector_list_equal] at h
  | cons c1 r1 ih =>
    intro l2 h
    cases l2 with
    | nil => simp [connector_list_equal] at h
    | cons c2 r2 =>
      simp only [connector_list_equal, Bool.and_eq_true] at h ⊢
      obtain ⟨hc, hr⟩ := h
      obtain ⟨hd, hm⟩ := (connector_equal_iff c1 c2).mp hc
      exact ⟨(connector_equal_iff c2 c1).mpr ⟨hd.symm, hm.symm⟩, ih r2 hr⟩

theorem connector_list_equal_trans : ∀ l1 l2 l3 : List Connector,
    connector_list_equal l1 l2 = true → connector_list_equal l2 l3 = true →
    connector_list_equal l1 l3 = true := by
  intro l1
  induction l1 with
  | nil =>
    intro l2 l3 h12 h23
    cases l2 with
    | nil => exact h23
    | cons c r => simp [connector_list_equal] at h12
  | cons c1 r1 ih =>
    intro l2 l3 h12 h23
    cases l2 with
    | nil => simp [connector_list_equal] at h12
    | cons c2 r2 =>
      cases l3 with
      | nil => simp [connector_list_equal] at h23
      | cons c3 r3 =>
        simp only [connector_list_equal, Bool.and_eq_true] at h12 h23 ⊢
        obtain ⟨hc12, hr12⟩ := h12
        obtain ⟨hc23, hr23⟩ := h23
        obtain ⟨hd12, hm12⟩ := (connector_equal_iff c1 c2).mp hc12
        obtain ⟨hd23, hm23⟩ := (connector_equal_iff c2 c3).mp hc23
        exact ⟨(connector_equal_iff c1 c3).mpr ⟨hd12.trans hd23, hm12.trans hm23⟩,
               ih r2 r3 hr12 hr23⟩

theorem connector_list_equal_congr (l1 l2 cl : List Connector)
    (h : connector_list_equal l1 l2 = true) :
    connector_list_equal cl l1 = connector_list_equal cl l2 := by
  cases hb : connector_list_equal cl l1 with
  | true => exact (connector_list_equal_trans cl l1 l2 hb h).symm
  | false =>
    cases hb2 : connector_list_equal cl l2 with
    | true =>
      have h2 := connector_list_equal_trans cl l2 l1 hb2
        (connector_list_equal_symm l1 l2 h)
      rw [hb] at h2
      exact h2
    | false => rfl

theorem chainEq_refl (mode : Bool) (c : List Connector) : chainEq mode c c :=
  ⟨connector_list_equal_refl c, fun _ => rfl⟩

theorem chainEq_symm (mode : Bool) (c1 c2 : List Connector)
    (h : chainEq mode c1 c2) : chainEq mode c2 c1 :=
  ⟨connector_list_equal_symm c1 c2 h.1, fun hm => (h.2 hm).symm⟩

theorem chainEq_trans (mode : Bool) (c1 c2 c3 : List Connector)
    (h12 : chainEq mode c1 c2) (h23 : chainEq mode c2 c3) : chainEq mode c1 c3 :=
  ⟨connector_list_equal_trans c1 c2 c3 h12.1 h23.1,
   fun hm => (h12.2 hm).trans (h23.2 hm)⟩

theorem hash_fold_congr (k : Nat) : ∀ (c1 c2 : List Connector) (a : Nat),
    connector_list_equal c1 c2 = true →
    c1.foldl (hash_step k) a = c2.foldl (hash_step k) a := by
  intro c1
  induction c1 with
  | nil =>
    intro c2 a h
    cases c2 with
    | nil => rfl
    | cons c r => simp [connector_list_equal] at h
  | cons cc1 r1 ih =>
    intro c2 a h
    cases c2 with
    | nil => simp [connector_list_equal] at h
    | cons cc2 r2 =>
      simp only [connector_list_equal, Bool.and_eq_true] at h
      obtain ⟨hd, hm⟩ := (connector_equal_iff cc1 cc2).mp h.1
      simp only [List.foldl_cons]
      rw [show hash_step k a cc1 = hash_step k a cc2 by simp [hash_step, hd, hm]]
      exact ih r2 _ h.2

theorem hash_connectors_congr (k : Nat) (mode : Bool) (c1 c2 : List Connector)
    (h : chainEq mode c1 c2) :
    hash_connectors k c1 mode = hash_connectors k c2 mode := by
  unfold hash_connectors
  have hinit : (if mode && headShallow c1 then 1 else 0)
      = (if (mode && headShallow c2 : Bool) then 1 else 0) := by
    rcases Bool.eq_false_or_eq_true mode with hm | hm
    · rw [hm, h.2 hm]
    · rw [hm]
      simp
  rw [hinit]
  exact hash_fold_congr k c1 c2 _ h.1

/-- `place_found` success at a filled slot means the stored chain is equal
(in the mode-appropriate sense) and the cached hash matches. -/
theorem place_found_some (c cl : List Connector) (slot : ClistSlot) (h : Nat)
    (ss : TraconSet) (hslot : slot.clist = some cl)
    (hpf : place_found c slot h ss = true) :
    chainEq ss.shallow cl c ∧ slot.hash = h := by
  obtain ⟨sh2, sc⟩ := slot
  have hsc : sc = some cl := hslot
  subst hsc
  simp only [place_found] at hpf
  show chainEq ss.shallow cl c ∧ sh2 = h
  by_cases h1 : (h != sh2) = true
  · rw [if_pos h1] at hpf
    exact absurd hpf (by simp)
  · rw [if_neg h1] at hpf
    by_cases h2 : !connector_list_equal cl c
    · rw [if_pos h2] at hpf
      exact absurd hpf (by simp)
    · rw [if_neg h2] at hpf
      by_cases h3 : ss.shallow && (headShallow cl != headShallow c)
      · rw [if_pos h3] at hpf
        exact absurd hpf (by simp)
      · rw [if_neg h3] at hpf
        refine ⟨⟨hpf, fun hm => ?_⟩, ?_⟩
        · rw [hm] at h3
          simpa using h3
        · have h4 : h = sh2 := by simpa using h1
          exact h4.symm

/-- `place_found` depends on the query chain only through its equivalence
class (and on the set only through the mode flag). -/
theorem place_found_congr2 (c1 c2 : List Connector) (ssA ssB : TraconSet)
    (hsh : ssB.shallow = ssA.shallow) (hc : chainEq ssA.shallow c1 c2)
    (slot : ClistSlot) (hh : Nat) :
    place_found c1 slot hh ssA = place_found c2 slot hh ssB := by
  obtain ⟨sh2, sc⟩ := slot
  cases sc with
  | none => rfl
  | some cl =>
    simp only [place_found]
    rw [connector_list_equal_congr c1 c2 cl hc.1, hsh]
    rcases Bool.eq_false_or_eq_true ssA.shallow with hm | hm
    · rw [hm, hc.2 hm]
    · rw [hm]
      simp

theorem find_place_go_found (c : List Connector) (h : Nat) (ss : TraconSet)
    (stride : Nat) : ∀ (fuel key p : Nat),
    find_place_go c h ss stride key fuel = some p →
    place_found c (slotAt ss p) h ss = true := by
  intro fuel
  induction fuel with
  | zero => intro key p hfp; exact absurd hfp (by simp [find_place_go])
  | succ f ih =>
    intro key p hfp
    simp only [find_place_go] at hfp
    by_cases hpf : place_found c
        (slotAt ss (if ss.size ≤ key + stride then (key + stride) % ss.size
          else key + stride)) h ss
    · rw [if_pos hpf] at hfp
      cases hfp
      exact hpf
    · rw [if_neg hpf] at hfp
      exact ih _ p hfp

theorem find_place_found (c : List Connector) (h : Nat) (ss : TraconSet)
    (fuel p : Nat) (hfp : find_place c h ss fuel = some p) :
    place_found c (slotAt ss p) h ss = true := by
  simp only [find_place] at hfp
  by_cases hpf : place_found c (slotAt ss (h % ss.size)) h ss
  · rw [if_pos hpf] at hfp
    cases hfp
    exact hpf
  · rw [if_neg hpf] at hfp
    exact find_place_go_found c h ss _ fuel _ p hfp

theorem getD_set_self {A : Type} : ∀ (l : List A) (i : Nat) (a d : A),
    i < l.length → (l.set i a).getD i d = a := by
  intro l
  induction l with
  | nil => intro i a d h; simp at h
  | cons x r ih =>
    intro i a d h
    cases i with
    | zero => rfl
    | succ j =>
      show (r.set j a).getD j d = a
      refine ih j a d ?_
      have h2 : j + 1 < r.length + 1 := h
      omega

theorem getD_set_ne {A : Type} : ∀ (l : List A) (i j : Nat) (a d : A),
    j ≠ i → (l.set i a).getD j d = l.getD j d := by
  intro l
  induction l with
  | nil => intro i j a d h; rfl
  | cons x r ih =>
    intro i j a d h
    cases i with
    | zero =>
      cases j with
      | zero => exact absurd rfl h
      | succ k => rfl
    | succ i2 =>
      cases j with
      | zero => rfl
      | succ k =>
        show (r.set i2 a).getD k d = r.getD k d
        exact ih i2 k a d (fun he => h (by rw [he]))

theorem list_set_set {A : Type} : ∀ (l : List A) (i : Nat) (a b : A),
    (l.set i a).set i b = l.set i b := by
  intro l
  induction l with
  | nil => intro i a b; rfl
  | cons x r ih =>
    intro i a b
    cases i with
    | zero => rfl
    | succ j =>
      show x :: (r.set j a).set j b = x :: r.set j b
      rw [ih j a b]

/-- Probe positions returned by `find_place_go` stay below the table size. -/
theorem find_place_go_lt (c : List Connector) (h : Nat) (ss : TraconSet)
    (stride : Nat) (hpos : 0 < ss.size) : ∀ (fuel key p : Nat),
    find_place_go c h ss stride key fuel = some p → p < ss.size := by
  intro fuel
  induction fuel with
  | zero => intro key p hfp; exact absurd hfp (by simp [find_place_go])
  | succ f ih =>
    intro key p hfp
    simp only [find_place_go] at hfp
    by_cases hle : ss.size ≤ key + stride
    · rw [if_pos hle] at hfp
      by_cases hpf : place_found c (slotAt ss ((key + stride) % ss.size)) h ss
      · rw [if_pos hpf] at hfp
        cases hfp
        exact Nat.mod_lt _ hpos
      · rw [if_neg hpf] at hfp
        exact ih _ p hfp
    · rw [if_neg hle] at hfp
      by_cases hpf : place_found c (slotAt ss (key + stride)) h ss
      · rw [if_pos hpf] at hfp
        cases hfp
        omega
      · rw [if_neg hpf] at hfp
        exact ih _ p hfp

/-- The slot index returned by `find_place` stays below the table size. -/
theorem find_place_lt (c : List Connector) (h : Nat) (ss : TraconSet)
    (fuel p : Nat) (hpos : 0 < ss.size)
    (hfp : find_place c h ss fuel = some p) : p < ss.size := by
  simp only [find_place] at hfp
  by_cases hpf : place_found c (slotAt ss (h % ss.size)) h ss
  · rw [if_pos hpf] at hfp
    cases hfp
    exact Nat.mod_lt _ hpos
  · rw [if_neg hpf] at hfp
    exact find_place_go_lt c h ss _ hpos fuel _ p hfp

/-- A slot holding an equal chain (with the matching cached hash) satisfies
`place_found`. -/
theorem place_found_of_chainEq (c cl : List Connector) (h : Nat)
    (ss : TraconSet) (hc : chainEq ss.shallow cl c) :
    place_found c ⟨h, some cl⟩ h ss = true := by
  have h3 : ¬ (ss.shallow && (headShallow cl != headShallow c)) = true := by
    rcases Bool.eq_false_or_eq_true ss.shallow with hm | hm
    · rw [hm, hc.2 hm]
      simp
    · rw [hm]
      simp
  simp only [place_found]
  rw [if_neg (by simp : ¬ ((h != h) = true)),
      if_neg (by simp [hc.1] : ¬ ((!connector_list_equal cl c) = true)),
      if_neg h3]
  exact hc.1

/-- What a successful no-growth `tracon_set_add` did: the returned index is
the probe result for the chain-s primary hash, and the set either is
untouched (slot already filled) or has exactly that slot-s hash cached and
the count bumped (fresh slot, still unfilled). -/
theorem tracon_set_add_spec (X : List Connector) (ss : TraconSet)
    (fuel p : Nat) (t : TraconSet)
    (hX : ¬ X = []) (hng : ¬ 8 * ss.count > 3 * ss.size)
    (h : tracon_set_add X ss fuel = some (p, t)) :
    find_place X (primary_hash_connectors X ss) ss fuel = some p ∧
    (((slotAt ss p).clist ≠ none ∧ t = ss) ∨
     ((slotAt ss p).clist = none ∧
       t = { ss with
         table := ss.table.set p ⟨primary_hash_connectors X ss, none⟩,
         count := ss.count + 1 })) := by
  rw [tracon_set_add, if_neg hX, if_neg hng] at h
  have h2 : (match find_place X (primary_hash_connectors X ss) ss fuel with
      | none => (none : Option (Nat × TraconSet))
      | some p0 =>
        if (slotAt ss p0).clist ≠ none then some (p0, ss)
        else some (p0, { ss with
          table := ss.table.set p0 ⟨primary_hash_connectors X ss, none⟩,
          count := ss.count + 1 })) = some (p, t) := h
  cases hfp : find_place X (primary_hash_connectors X ss) ss fuel with
  | none =>
    rw [hfp] at h2
    exact absurd h2 (by simp)
  | some p0 =>
    rw [hfp] at h2
    have h3 : (if (slotAt ss p0).clist ≠ none then some (p0, ss)
        else some (p0, ({ ss with
          table := ss.table.set p0 ⟨primary_hash_connectors X ss, none⟩,
          count := ss.count + 1 } : TraconSet))) = some (p, t) := h2
    by_cases hemp : (slotAt ss p0).clist = none
    · rw [if_neg (fun hC => hC hemp)] at h3
      simp only [Option.some.injEq, Prod.mk.injEq] at h3
      obtain ⟨hp, ht⟩ := h3
      subst hp
      subst ht
      exact ⟨rfl, Or.inr ⟨hemp, rfl⟩⟩
    · rw [if_pos hemp] at h3
      simp only [Option.some.injEq, Prod.mk.injEq] at h3
      obtain ⟨hp, ht⟩ := h3
      subst hp
      subst ht
      exact ⟨rfl, Or.inl ⟨hemp, rfl⟩⟩

/-- What a successful no-growth `tracon_insert` (add plus the caller-s
mandatory fill) did: the mode, size and all other slots are untouched, the
returned index is the probe result, and that slot now caches the chain-s
primary hash and holds a chain equal to the inserted one (the old occupant
on a hit, the chain itself on a fresh slot). -/
theorem tracon_insert_spec (X : List Connector) (ss : TraconSet)
    (fuel p1 : Nat) (ss1 : TraconSet)
    (hlen : ss.table.length = ss.size) (hpos : 0 < ss.size)
    (hng : ¬ 8 * ss.count > 3 * ss.size)
    (h1 : tracon_insert X ss fuel = some (p1, ss1)) :
    ss1.shallow = ss.shallow ∧ ss1.size = ss.size ∧
    (∀ q, q ≠ p1 → slotAt ss1 q = slotAt ss q) ∧
    find_place X (primary_hash_connectors X ss) ss fuel = some p1 ∧
    ∃ cl0, slotAt ss1 p1 = ⟨primary_hash_connectors X ss, some cl0⟩ ∧
      chainEq ss.shallow cl0 X := by
  have hX : ¬ X = [] := by
    intro he
    rw [he] at h1
    simp [tracon_insert, tracon_set_add] at h1
  rw [tracon_insert] at h1
  cases hadd : tracon_set_add X ss fuel with
  | none =>
    rw [hadd] at h1
    exact absurd h1 (by simp)
  | some pt =>
    obtain ⟨p0, t⟩ := pt
    rw [hadd] at h1
    have h2 : (if (slotAt t p0).clist = none
        then some (p0, tracon_set_fill p0 X t) else some (p0, t))
        = some (p1, ss1) := h1
    obtain ⟨hfp, hcase⟩ := tracon_set_add_spec X ss fuel p0 t hX hng hadd
    have hple : p0 < ss.size := find_place_lt X _ ss fuel p0 hpos hfp
    have hplen : p0 < ss.table.length := by rw [hlen]; exact hple
    have hpfp := find_place_found X (primary_hash_connectors X ss) ss fuel p0 hfp
    rcases hcase with ⟨hfill, ht⟩ | ⟨hfree, ht⟩
    · rw [ht] at h2
      rw [if_neg hfill] at h2
      simp only [Option.some.injEq, Prod.mk.injEq] at h2
      obtain ⟨hp, hss⟩ := h2
      subst hp
      subst hss
      obtain ⟨cl0, hcl0⟩ := Option.ne_none_iff_exists.mp hfill
      have hps := place_found_some X cl0 (slotAt ss p0)
        (primary_hash_connectors X ss) ss hcl0.symm hpfp
      refine ⟨rfl, rfl, fun q _ => rfl, hfp, cl0, ?_, hps.1⟩
      have hrepr : slotAt ss p0 = ⟨(slotAt ss p0).hash, (slotAt ss p0).clist⟩ := rfl
      rw [hrepr, hps.2, ← hcl0]
    · rw [ht] at h2
      have hsat : slotAt { ss with
          table := ss.table.set p0 ⟨primary_hash_connectors X ss, none⟩,
          count := ss.count + 1 } p0
          = ⟨primary_hash_connectors X ss, none⟩ := by
        show (ss.table.set p0 ⟨primary_hash_connectors X ss, none⟩).getD p0 ⟨0, none⟩
            = ⟨primary_hash_connectors X ss, none⟩
        exact getD_set_self ss.table p0 _ _ hplen
      rw [if_pos (by rw [hsat])] at h2
      simp only [Option.some.injEq, Prod.mk.injEq] at h2
      obtain ⟨hp, hss⟩ := h2
      subst hp
      subst hss
      have htab2 : (tracon_set_fill p0 X { ss with
          table := ss.table.set p0 ⟨primary_hash_connectors X ss, none⟩,
          count := ss.count + 1 }).table
          = ss.table.set p0 ⟨primary_hash_connectors X ss, some X⟩ := by
        show (ss.table.set p0 ⟨primary_hash_connectors X ss, none⟩).set p0
            ⟨(slotAt { ss with
              table := ss.table.set p0 ⟨primary_hash_connectors X ss, none⟩,
              count := ss.count + 1 } p0).hash, some X⟩
            = ss.table.set p0 ⟨primary_hash_connectors X ss, some X⟩
        rw [hsat, list_set_set]
      refine ⟨rfl, rfl, ?_, hfp, X, ?_, chainEq_refl _ _⟩
      · intro q hq
        simp only [slotAt]
        rw [htab2, getD_set_ne ss.table p0 q _ _ hq]
      · simp only [slotAt]
        rw [htab2]
        exact getD_set_self ss.table p0 _ _ hplen

/-- The stride hash respects chain equality (it reads only descriptor
identity, multi flags and — in shallow mode — the head flag). -/
theorem stride_hash_congr (cX cY : List Connector) (ssA ssB : TraconSet)
    (hsh : ssB.shallow = ssA.shallow) (hsz : ssB.size = ssA.size)
    (hc : chainEq ssA.shallow cX cY) :
    stride_hash_connectors cY ssB = stride_hash_connectors cX ssA := by
  simp only [stride_hash_connectors]
  rw [hsh, hsz, hash_connectors_congr 17 ssA.shallow cX cY hc]

/-- Probe mirroring: if a second probe sequence sees the same slots except
at `p1` (where it succeeds) and the first probe returned `p1`, the second
probe can only return `p1` as well, whatever its fuel. -/
theorem find_place_go_mirror (cX cY : List Connector) (h : Nat)
    (ssA ssB : TraconSet) (stride p1 : Nat)
    (hsz : ssB.size = ssA.size)
    (hQ1 : place_found cY (slotAt ssB p1) h ssB = true)
    (hQP : ∀ q, q ≠ p1 →
      place_found cY (slotAt ssB q) h ssB = place_found cX (slotAt ssA q) h ssA)
    (hP1 : place_found cX (slotAt ssA p1) h ssA = true) :
    ∀ (fA key fB p2 : Nat),
    find_place_go cX h ssA stride key fA = some p1 →
    find_place_go cY h ssB stride key fB = some p2 → p2 = p1 := by
  intro fA
  induction fA with
  | zero =>
    intro key fB p2 hA hB
    exact absurd hA (by simp [find_place_go])
  | succ f ih =>
    intro key fB p2 hA hB
    simp only [find_place_go] at hA
    by_cases hpf : place_found cX (slotAt ssA
        (if ssA.size ≤ key + stride then (key + stride) % ssA.size
         else key + stride)) h ssA
    · rw [if_pos hpf] at hA
      have hkey := Option.some.inj hA
      cases fB with
      | zero => exact absurd hB (by simp [find_place_go])
      | succ fB2 =>
        simp only [find_place_go] at hB
        rw [hsz] at hB
        rw [hkey] at hB
        rw [if_pos hQ1] at hB
        exact Option.some.inj hB.symm
    · rw [if_neg hpf] at hA
      have hne : (if ssA.size ≤ key + stride then (key + stride) % ssA.size
          else key + stride) ≠ p1 := by
        intro he
        rw [he] at hpf
        exact hpf hP1
      simp only [Bool.not_eq_true] at hpf
      cases fB with
      | zero => exact absurd hB (by simp [find_place_go])
      | succ fB2 =>
        simp only [find_place_go] at hB
        rw [hsz] at hB
        have hq : place_found cY (slotAt ssB
            (if ssA.size ≤ key + stride then (key + stride) % ssA.size
             else key + stride)) h ssB = false := by
          rw [hQP _ hne]
          exact hpf
        rw [hq] at hB
        rw [if_neg (by simp)] at hB
        exact ih _ fB2 p2 hA hB

/-- `find_place` mirroring: across two sets of equal size whose slots agree
except at `p1`, a probe for an equal chain with the same hash and stride
that succeeds can only land on the slot `p1` the first probe returned. -/
theorem find_place_mirror (cX cY : List Connector) (h : Nat)
    (ssA ssB : TraconSet) (p1 : Nat)
    (hsz : ssB.size = ssA.size)
    (hstr : stride_hash_connectors cY ssB = stride_hash_connectors cX ssA)
    (hQ1 : place_found cY (slotAt ssB p1) h ssB = true)
    (hQP : ∀ q, q ≠ p1 →
      place_found cY (slotAt ssB q) h ssB = place_found cX (slotAt ssA q) h ssA)
    (fA fB p2 : Nat)
    (hA : find_place cX h ssA fA = some p1)
    (hB : find_place cY h ssB fB = some p2) : p2 = p1 := by
  have hP1 : place_found cX (slotAt ssA p1) h ssA = true :=
    find_place_found cX h ssA fA p1 hA
  simp only [find_place] at hA hB
  rw [hsz, hstr] at hB
  by_cases hpf : place_found cX (slotAt ssA (h % ssA.size)) h ssA
  · rw [if_pos hpf] at hA
    have hkey := Option.some.inj hA
    rw [hkey] at hB
    rw [if_pos hQ1] at hB
    exact Option.some.inj hB.symm
  · rw [if_neg hpf] at hA
    have hne : h % ssA.size ≠ p1 := by
      intro he
      rw [he] at hpf
      exact hpf hP1
    simp only [Bool.not_eq_true] at hpf
    have hq : place_found cY (slotAt ssB (h % ssA.size)) h ssB = false := by
      rw [hQP _ hne]
      exact hpf
    rw [hq] at hB
    rw [if_neg (by simp)] at hB
    exact find_place_go_mirror cX cY h ssA ssB _ p1 hsz hQ1 hQP hP1
      fA _ fB p2 hA hB

/-- C8 (amended): as long as the table does not grow, two chains put into
the same tracon set land in the same slot exactly when they are equal —
same length, pointwise descriptor identity and multi flag, plus equal head
shallow flags in shallow-discriminating mode.  Concretely: after a
no-growth `tracon_insert` of X returning slot p1, a successful no-growth
`tracon_set_add` of Y returns p1 if and only if `chainEq ss.shallow X Y`.
(Without the no-growth proviso the claim fails: rehashing moves the
canonical entry to a different slot, see the counterexample.) -/
theorem claim_C8_amended (X Y : List Connector) (ss : TraconSet)
    (fuel1 fuel2 p1 p2 : Nat) (ss1 ss2 : TraconSet)
    (hlen : ss.table.length = ss.size) (hpos : 0 < ss.size)
    (hng0 : ¬ 8 * ss.count > 3 * ss.size)
    (h1 : tracon_insert X ss fuel1 = some (p1, ss1))
    (hng1 : ¬ 8 * ss1.count > 3 * ss1.size)
    (h2 : tracon_set_add Y ss1 fuel2 = some (p2, ss2)) :
    p1 = p2 ↔ chainEq ss.shallow X Y := by
  obtain ⟨hsh1, hsz1, hslots, hfpX, cl0, hslot0, hcl0⟩ :=
    tracon_insert_spec X ss fuel1 p1 ss1 hlen hpos hng0 h1
  have hY : ¬ Y = [] := by
    intro he
    rw [he] at h2
    simp [tracon_set_add] at h2
  obtain ⟨hfpY, _⟩ := tracon_set_add_spec Y ss1 fuel2 p2 ss2 hY hng1 h2
  constructor
  · intro hp
    subst hp
    have hpfY := find_place_found Y (primary_hash_connectors Y ss1) ss1 fuel2
      p1 hfpY
    rw [hslot0] at hpfY
    have hps := place_found_some Y cl0
      ⟨primary_hash_connectors X ss, some cl0⟩
      (primary_hash_connectors Y ss1) ss1 rfl hpfY
    have hcly : chainEq ss.shallow cl0 Y := by
      rw [← hsh1]
      exact hps.1
    exact chainEq_trans ss.shallow X cl0 Y (chainEq_symm _ _ _ hcl0) hcly
  · intro hc
    have hXcl : chainEq ss.shallow cl0 Y :=
      chainEq_trans ss.shallow cl0 X Y hcl0 hc
    have hhash : primary_hash_connectors Y ss1 = primary_hash_connectors X ss := by
      simp only [primary_hash_connectors]
      rw [hsh1]
      exact (hash_connectors_congr 7 ss.shallow X Y hc).symm
    rw [hhash] at hfpY
    have hQ1 : place_found Y (slotAt ss1 p1)
        (primary_hash_connectors X ss) ss1 = true := by
      rw [hslot0]
      exact place_found_of_chainEq Y cl0 (primary_hash_connectors X ss) ss1
        (by rw [hsh1]; exact hXcl)
    have hQP : ∀ q, q ≠ p1 →
        place_found Y (slotAt ss1 q) (primary_hash_connectors X ss) ss1
        = place_found X (slotAt ss q) (primary_hash_connectors X ss) ss := by
      intro q hq
      rw [hslots q hq]
      exact (place_found_congr2 X Y ss ss1 hsh1 hc (slotAt ss q) _).symm
    have hstr : stride_hash_connectors Y ss1 = stride_hash_connectors X ss :=
      stride_hash_congr X Y ss ss1 hsh1 hsz1 hc
    exact (find_place_mirror X Y (primary_hash_connectors X ss) ss ss1 p1
      hsz1 hstr hQ1 hQP fuel1 fuel2 p2 hfpX hfpY).symm

/-- A one-connector chain with descriptor identity `i` (distinct `i` give
unequal chains). -/
def exC8chain (i : Nat) : List Connector :=
  [⟨⟨i, i, 0⟩, false, 0, 0, false, 0⟩]

/-- The set after inserting `exC8chain 1` into a fresh tracon set. -/
def exC8s1 : TraconSet :=
  ((tracon_insert (exC8chain 1) tracon_set_create 50).getD
    (0, tracon_set_create)).2

theorem claim_C8_amended_witness :
    3 = 3 ↔ chainEq tracon_set_create.shallow (exC8chain 1) (exC8chain 1) :=
  claim_C8_amended (exC8chain 1) (exC8chain 1) tracon_set_create 50 50 3 3
    exC8s1 exC8s1 (by decide) (by decide) (by decide) (by decide) (by decide)
    (by decide)

/-- Successive insertion of several chains, failure-propagating. -/
def tracon_insert_all (cs : List (List Connector)) (ss : TraconSet)
    (fuel : Nat) : Option TraconSet :=
  match cs with
  | [] => some ss
  | c :: rest =>
    match tracon_insert c ss fuel with
    | none => none
    | some (_, t) => tracon_insert_all rest t fuel

/-- The set after additionally interning four more distinct chains. -/
def exC8mid : TraconSet :=
  (tracon_insert_all [exC8chain 2, exC8chain 3, exC8chain 4, exC8chain 5]
    exC8s1 50).getD tracon_set_create

/-- The result of re-adding `exC8chain 1`, which triggers table growth. -/
def exC8grow : Nat × TraconSet :=
  (tracon_set_add (exC8chain 1) exC8mid 50).getD (0, tracon_set_create)

/-- C8 (counterexample): two EQUAL chains added to the same tracon set do
NOT always get the same slot from `tracon_set_add` — the first insert of
`exC8chain 1` into a fresh set returns slot 3, but after four more distinct
chains are interned the table grows past 3/8 load and re-adding an equal
chain returns slot 13. -/
theorem claim_C8_counterexample :
    ¬ (∀ (X Y : List Connector) (ss : TraconSet) (f1 f2 p1 p2 : Nat)
        (ss1 ssMid ss2 : TraconSet) (mid : List (List Connector)) (f3 : Nat),
        tracon_insert X ss f1 = some (p1, ss1) →
        tracon_insert_all mid ss1 f3 = some ssMid →
        tracon_set_add Y ssMid f2 = some (p2, ss2) →
        (p1 = p2 ↔ chainEq ss.shallow X Y)) := by
  intro hcl
  have h := hcl (exC8chain 1) (exC8chain 1) tracon_set_create 50 50 3
    exC8grow.1 exC8s1 exC8mid exC8grow.2
    [exC8chain 2, exC8chain 3, exC8chain 4, exC8chain 5] 50
    (by decide) (by decide) (by decide)
  have h3 : (3 : Nat) = exC8grow.1 := h.mpr (chainEq_refl _ _)
  exact absurd h3 (by decide)

end LinkGrammar
